import Mathlib

/-!
Verification of the TKTRIE radix trie (`src/tktrie.h`).

The development shallowly embeds the single-threaded functional core of the
trie: the 256-bit popcount bitmap `pop_tp`, the node type `tktrie_node`
(here `Node`), the traversal `find_node_internal`, the mutation algorithms
`try_insert` / `try_remove` (their success paths, which are the paths taken
when no concurrent writer interferes), `clear`, and the iterator's
`find_next_data` / `advance` walk.

Machine integers are modelled as `Nat` with explicit truncation `% 2^64`
where overflow matters.  Bytes are `Fin 256` (the header casts `char` to
`uint8_t` before any bitmap use).  The value type `T` is a type parameter
`α` with `Inhabited` standing for `T{}`.
-/

/-- Population count of a natural number (`std::popcount`). -/
def popcount (n : Nat) : Nat :=
  if h : n = 0 then 0 else n % 2 + popcount (n / 2)
termination_by n
decreasing_by exact Nat.div_lt_self (Nat.pos_of_ne_zero h) (by decide)

/-- Count of trailing zeros (`std::countr_zero` on `uint64_t`); 64 at zero. -/
def ctz (n : Nat) : Nat :=
  if h : n = 0 then 64 else if n % 2 = 1 then 0 else 1 + ctz (n / 2)
termination_by n
decreasing_by exact Nat.div_lt_self (Nat.pos_of_ne_zero h) (by decide)

/-- 256-bit bitmap for sparse child indexing (`pop_tp`): four 64-bit words. -/
structure pop_tp where
  w0 : Nat
  w1 : Nat
  w2 : Nat
  w3 : Nat
deriving DecidableEq

namespace pop_tp

/-- The all-zero bitmap (`pop_tp{}`). -/
def zero : pop_tp := ⟨0, 0, 0, 0⟩

/-- `bits[i]` (reads beyond word 3 cannot occur: the word index is `v >> 6`
with `v < 256`). -/
def word (p : pop_tp) (i : Nat) : Nat :=
  match i with
  | 0 => p.w0
  | 1 => p.w1
  | 2 => p.w2
  | _ => p.w3

/-- Functional update of `bits[i]`. -/
def setWord (p : pop_tp) (i : Nat) (x : Nat) : pop_tp :=
  match i with
  | 0 => { p with w0 := x }
  | 1 => { p with w1 := x }
  | 2 => { p with w2 := x }
  | _ => { p with w3 := x }

/-- All four words fit in 64 bits. -/
def wf (p : pop_tp) : Prop :=
  p.w0 < 2 ^ 64 ∧ p.w1 < 2 ^ 64 ∧ p.w2 < 2 ^ 64 ∧ p.w3 < 2 ^ 64

instance : DecidablePred wf := fun p => by unfold wf; infer_instance

/-- `pop_tp::has`: `bits[v>>6] & (1ULL << (v&63))`. -/
def has (p : pop_tp) (c : Fin 256) : Bool :=
  p.word (c.val / 64) &&& (1 <<< (c.val % 64)) != 0

/-- The loop `for (int i = 0; i < word; ++i) idx += std::popcount(bits[i]);`. -/
def sumPopBelow (p : pop_tp) (w : Nat) : Nat :=
  ((List.range w).map (fun i => popcount (p.word i))).sum

/-- `pop_tp::find_pop`: ordinal index of byte `c` among set bits, or `none`
when the bit is clear (the C++ returns `bool` plus an out-parameter). -/
def find_pop (p : pop_tp) (c : Fin 256) : Option Nat :=
  let w := c.val / 64
  let bit := c.val % 64
  let mask := 1 <<< bit
  if p.word w &&& mask = 0 then none
  else some (popcount (p.word w &&& (mask - 1)) + p.sumPopBelow w)

/-- `pop_tp::set_bit`: sets bit `c`, returns its ordinal position and the
updated bitmap (the C++ mutates in place and returns the index). -/
def set_bit (p : pop_tp) (c : Fin 256) : Nat × pop_tp :=
  let w := c.val / 64
  let bit := c.val % 64
  let mask := 1 <<< bit
  (popcount (p.word w &&& (mask - 1)) + p.sumPopBelow w,
   p.setWord w (p.word w ||| mask))

/-- `pop_tp::clear_bit`: clears bit `c`, returns the pre-clear ordinal
position and the updated bitmap (`bits[word] &= ~mask`). -/
def clear_bit (p : pop_tp) (c : Fin 256) : Nat × pop_tp :=
  let w := c.val / 64
  let bit := c.val % 64
  let mask := 1 <<< bit
  (popcount (p.word w &&& (mask - 1)) + p.sumPopBelow w,
   p.setWord w (p.word w &&& ((2 ^ 64 - 1) ^^^ mask)))

/-- `pop_tp::count`. -/
def count (p : pop_tp) : Nat :=
  popcount p.w0 + popcount p.w1 + popcount p.w2 + popcount p.w3

/-- `pop_tp::empty`. -/
def isEmpty (p : pop_tp) : Bool :=
  p.w0 = 0 && p.w1 = 0 && p.w2 = 0 && p.w3 = 0

/-- `pop_tp::first_char`: byte of lowest set bit, `0` (`'\0'`) when empty.
The result is the raw byte value `(word << 6) | bit`. -/
def first_char (p : pop_tp) : Nat :=
  if p.w0 ≠ 0 then ctz p.w0
  else if p.w1 ≠ 0 then 64 + ctz p.w1
  else if p.w2 ≠ 0 then 128 + ctz p.w2
  else if p.w3 ≠ 0 then 192 + ctz p.w3
  else 0

/-- `pop_tp::next_char`: byte of lowest set bit strictly greater than `c`,
`0` (`'\0'`) when none.

The C++ computes `mask = ~((1ULL << (bit + 1)) - 1)`.  When `bit = 63`
(bytes `0x3F`, `0x7F`, `0xBF`, `0xFF`) the shift count is 64, which is
undefined behaviour in C++; x86-64 and AArch64 reduce the shift count
modulo 64, which is what this model follows (`(bit + 1) % 64`). -/
def next_char (p : pop_tp) (c : Fin 256) : Nat :=
  let w := c.val / 64
  let bit := c.val % 64
  let mask := (2 ^ 64 - 1) ^^^ ((1 <<< ((bit + 1) % 64)) - 1)
  let remaining := p.word w &&& mask
  if remaining ≠ 0 then 64 * w + ctz remaining
  else if w < 1 ∧ p.w1 ≠ 0 then 64 + ctz p.w1
  else if w < 2 ∧ p.w2 ≠ 0 then 128 + ctz p.w2
  else if w < 3 ∧ p.w3 ≠ 0 then 192 + ctz p.w3
  else 0

/-! ### Abstract reading of the bitmap -/

/-- The ascending list of set bytes contributed by word `w` at base byte
`base` (`base ∈ {0, 64, 128, 192}`). -/
def wordBits (base w : Nat) : List Nat :=
  ((List.range 64).filter (fun j => w.testBit j)).map (fun j => base + j)

/-- The ascending list of all set bytes of the bitmap. -/
def bitsList (p : pop_tp) : List Nat :=
  wordBits 0 p.w0 ++ wordBits 64 p.w1 ++ wordBits 128 p.w2 ++ wordBits 192 p.w3

/-- Number of set bytes strictly below `c`: the ordinal position of `c`
among the set bits when `c` is set. -/
def rank (p : pop_tp) (c : Nat) : Nat :=
  (p.bitsList).countP (fun b => b < c)

end pop_tp

/-! ### popcount characterization -/

theorem popcount_zero : popcount 0 = 0 := by
  unfold popcount; simp

theorem popcount_succ_eq (n : Nat) (hn : n ≠ 0) :
    popcount n = n % 2 + popcount (n / 2) := by
  rw [popcount]; simp [hn]

/-- `popcount n` counts the set bits of `n` when `n < 2 ^ w`. -/
theorem popcount_eq_countP (w : Nat) : ∀ n : Nat, n < 2 ^ w →
    popcount n = (List.range w).countP (fun j => n.testBit j) := by
  induction w with
  | zero =>
      intro n h
      have hn : n = 0 := by simpa using h
      simp [hn, popcount_zero]
  | succ w ih =>
      intro n h
      by_cases h0 : n = 0
      · simp [h0, popcount_zero, List.countP_eq_zero]
      · rw [popcount_succ_eq n h0, List.range_succ_eq_map, List.countP_cons,
          List.countP_map]
        have hdiv : n / 2 < 2 ^ w := by
          rw [Nat.div_lt_iff_lt_mul (by decide : (0:Nat) < 2)]
          calc n < 2 ^ (w + 1) := h
            _ = 2 ^ w * 2 := Nat.pow_succ 2 w
        have hc : (List.range w).countP ((fun j => n.testBit j) ∘ Nat.succ)
            = (List.range w).countP (fun j => (n / 2).testBit j) := by
          apply List.countP_congr
          intro x _
          simp [Nat.testBit_add_one]
        rw [hc, ← ih (n / 2) hdiv]
        rcases Nat.mod_two_eq_zero_or_one n with h2 | h2 <;>
          simp [Nat.testBit_zero, h2] <;> omega

/-- popcount of a value masked to its low `B` bits. -/
theorem popcount_and_two_pow_sub_one (n B : Nat) :
    popcount (n &&& (2 ^ B - 1)) = (List.range B).countP (fun j => n.testBit j) := by
  have h1 : n &&& (2 ^ B - 1) < 2 ^ B :=
    Nat.and_lt_two_pow n (Nat.sub_lt (Nat.two_pow_pos B) Nat.one_pos)
  rw [popcount_eq_countP B _ h1]
  apply List.countP_congr
  intro j hj
  rw [List.mem_range] at hj
  simp [Nat.testBit_and, Nat.testBit_two_pow_sub_one, hj]

theorem and_one_shiftLeft_ne_zero_iff (w b : Nat) :
    ¬(w &&& (1 <<< b) = 0) ↔ w.testBit b = true := by
  rw [Nat.one_shiftLeft]
  constructor
  · intro h
    by_contra hb
    rw [Bool.not_eq_true] at hb
    apply h
    apply Nat.eq_of_testBit_eq
    intro i
    simp only [Nat.testBit_and, Nat.testBit_two_pow, Nat.zero_testBit]
    by_cases hib : b = i
    · subst hib; simp [hb]
    · simp [hib]
  · intro h hz
    have h2 := congrArg (fun m => m.testBit b) hz
    simp [Nat.testBit_and, h, Nat.testBit_two_pow] at h2

namespace pop_tp

/-! ### wordBits and rank lemmas -/

theorem mem_wordBits {base w c : Nat} :
    c ∈ wordBits base w ↔ base ≤ c ∧ c < base + 64 ∧ w.testBit (c - base) = true := by
  unfold wordBits
  simp only [List.mem_map, List.mem_filter, List.mem_range]
  constructor
  · rintro ⟨j, ⟨hj64, hbit⟩, rfl⟩
    refine ⟨Nat.le_add_right _ _, by omega, ?_⟩
    rwa [Nat.add_sub_cancel_left]
  · rintro ⟨h1, h2, h3⟩
    exact ⟨c - base, ⟨by omega, h3⟩, by omega⟩

theorem length_wordBits (base : Nat) {w : Nat} (hw : w < 2 ^ 64) :
    (wordBits base w).length = popcount w := by
  unfold wordBits
  rw [List.length_map, ← List.countP_eq_length_filter, ← popcount_eq_countP 64 w hw]

/-- Words entirely at or above the threshold contribute no byte below `c`. -/
theorem countP_wordBits_ge (base w c : Nat) (h : c ≤ base) :
    (wordBits base w).countP (fun b => decide (b < c)) = 0 := by
  rw [List.countP_eq_zero]
  intro a ha
  rw [mem_wordBits] at ha
  simp only [decide_eq_true_eq]
  omega

/-- Words entirely below the threshold contribute all their set bits. -/
theorem countP_wordBits_lt_all (base : Nat) {w : Nat} (c : Nat) (hw : w < 2 ^ 64)
    (h : base + 64 ≤ c) :
    (wordBits base w).countP (fun b => decide (b < c)) = popcount w := by
  have hall : ∀ a ∈ wordBits base w, (fun b => decide (b < c)) a = true := by
    intro a ha
    rw [mem_wordBits] at ha
    simp only [decide_eq_true_eq]
    omega
  calc (wordBits base w).countP (fun b => decide (b < c))
      = (wordBits base w).length := List.countP_eq_length.mpr hall
    _ = popcount w := length_wordBits base hw

/-- The word containing the threshold contributes its set bits below `B`. -/
theorem countP_wordBits_middle (base w B : Nat) (hB : B ≤ 64) :
    (wordBits base w).countP (fun b => decide (b < base + B)) =
      popcount (w &&& (2 ^ B - 1)) := by
  unfold wordBits
  rw [List.countP_map, List.countP_filter, popcount_and_two_pow_sub_one]
  rw [show (64 : Nat) = B + (64 - B) by omega, List.range_add, List.countP_append,
    List.countP_map]
  simp only [Function.comp]
  have h1 : (List.range B).countP
        (fun j => decide (base + j < base + B) && w.testBit j)
      = (List.range B).countP (fun j => w.testBit j) := by
    apply List.countP_congr
    intro j hj
    rw [List.mem_range] at hj
    simp [hj]
  rw [h1, add_right_eq_self, List.countP_eq_zero]
  intro a _
  simp only [Function.comp_apply, Bool.and_eq_true, decide_eq_true_eq]
  omega

theorem sumPopBelow_zero (p : pop_tp) : p.sumPopBelow 0 = 0 := rfl

theorem sumPopBelow_one (p : pop_tp) : p.sumPopBelow 1 = popcount p.w0 := by
  simp [sumPopBelow, List.range_succ, word]

theorem sumPopBelow_two (p : pop_tp) :
    p.sumPopBelow 2 = popcount p.w0 + popcount p.w1 := by
  simp [sumPopBelow, List.range_succ, word]

theorem sumPopBelow_three (p : pop_tp) :
    p.sumPopBelow 3 = popcount p.w0 + popcount p.w1 + popcount p.w2 := by
  simp [sumPopBelow, List.range_succ, word]
  omega

/-- The index computed by `find_pop` / `set_bit` / `clear_bit` is the number
of set bytes strictly below `c`. -/
theorem rank_eq_word_formula {p : pop_tp} (hp : p.wf) (c : Fin 256) :
    p.rank c.val =
      popcount (p.word (c.val / 64) &&& ((1 <<< (c.val % 64)) - 1)) +
        p.sumPopBelow (c.val / 64) := by
  obtain ⟨h0, h1, h2, h3⟩ := hp
  have hc := c.isLt
  rw [Nat.one_shiftLeft]
  unfold rank bitsList
  rw [List.countP_append, List.countP_append, List.countP_append]
  rcases (by omega :
      c.val < 64 ∨ (64 ≤ c.val ∧ c.val < 128) ∨ (128 ≤ c.val ∧ c.val < 192) ∨
        192 ≤ c.val) with hr | hr | hr | hr
  · have hdiv : c.val / 64 = 0 := by omega
    have hmod : c.val % 64 = c.val := by omega
    rw [hdiv, hmod, sumPopBelow_zero]
    have e1 := countP_wordBits_middle 0 p.w0 c.val (by omega)
    rw [Nat.zero_add] at e1
    rw [e1, countP_wordBits_ge 64 p.w1 c.val (by omega),
      countP_wordBits_ge 128 p.w2 c.val (by omega),
      countP_wordBits_ge 192 p.w3 c.val (by omega)]
    show _ = popcount (p.w0 &&& (2 ^ c.val - 1)) + 0
    omega
  · have hdiv : c.val / 64 = 1 := by omega
    have hmod : c.val % 64 = c.val - 64 := by omega
    rw [hdiv, hmod, sumPopBelow_one]
    have e2 := countP_wordBits_middle 64 p.w1 (c.val - 64) (by omega)
    rw [show 64 + (c.val - 64) = c.val by omega] at e2
    rw [countP_wordBits_lt_all 0 c.val h0 (by omega), e2,
      countP_wordBits_ge 128 p.w2 c.val (by omega),
      countP_wordBits_ge 192 p.w3 c.val (by omega)]
    show _ = popcount (p.w1 &&& (2 ^ (c.val - 64) - 1)) + popcount p.w0
    omega
  · have hdiv : c.val / 64 = 2 := by omega
    have hmod : c.val % 64 = c.val - 128 := by omega
    rw [hdiv, hmod, sumPopBelow_two]
    have e3 := countP_wordBits_middle 128 p.w2 (c.val - 128) (by omega)
    rw [show 128 + (c.val - 128) = c.val by omega] at e3
    rw [countP_wordBits_lt_all 0 c.val h0 (by omega),
      countP_wordBits_lt_all 64 c.val h1 (by omega), e3,
      countP_wordBits_ge 192 p.w3 c.val (by omega)]
    show _ = popcount (p.w2 &&& (2 ^ (c.val - 128) - 1)) +
      (popcount p.w0 + popcount p.w1)
    omega
  · have hdiv : c.val / 64 = 3 := by omega
    have hmod : c.val % 64 = c.val - 192 := by omega
    rw [hdiv, hmod, sumPopBelow_three]
    have e4 := countP_wordBits_middle 192 p.w3 (c.val - 192) (by omega)
    rw [show 192 + (c.val - 192) = c.val by omega] at e4
    rw [countP_wordBits_lt_all 0 c.val h0 (by omega),
      countP_wordBits_lt_all 64 c.val h1 (by omega),
      countP_wordBits_lt_all 128 c.val h2 (by omega), e4]
    show _ = popcount (p.w3 &&& (2 ^ (c.val - 192) - 1)) +
      (popcount p.w0 + popcount p.w1 + popcount p.w2)
    omega

/-- `has` read through `testBit`. -/
theorem has_eq_testBit (p : pop_tp) (c : Fin 256) :
    p.has c = (p.word (c.val / 64)).testBit (c.val % 64) := by
  unfold has
  by_cases h : (p.word (c.val / 64)).testBit (c.val % 64) = true
  · have h2 := (and_one_shiftLeft_ne_zero_iff (p.word (c.val / 64)) (c.val % 64)).mpr h
    simp [h, bne_iff_ne, h2]
  · rw [Bool.not_eq_true] at h
    have h2 : p.word (c.val / 64) &&& (1 <<< (c.val % 64)) = 0 := by
      by_contra h3
      rw [and_one_shiftLeft_ne_zero_iff] at h3
      simp [h3] at h
    simp [h, h2]

/-- `find_pop` returns exactly the rank when the bit is set. -/
theorem find_pop_eq {p : pop_tp} (hp : p.wf) (c : Fin 256) :
    p.find_pop c = if p.has c then some (p.rank c.val) else none := by
  unfold find_pop
  by_cases h : p.word (c.val / 64) &&& (1 <<< (c.val % 64)) = 0
  · have hh : p.has c = false := by
      unfold has
      simp [h]
    simp [h, hh]
  · have hh : p.has c = true := by
      unfold has
      simp [bne_iff_ne, h]
    simp only [h, if_neg, hh, if_true, if_false]
    rw [rank_eq_word_formula ⟨hp.1, hp.2.1, hp.2.2.1, hp.2.2.2⟩ c]

/-- The index returned by `set_bit` is the rank of the inserted byte. -/
theorem set_bit_fst {p : pop_tp} (hp : p.wf) (c : Fin 256) :
    (p.set_bit c).1 = p.rank c.val := by
  unfold set_bit
  exact (rank_eq_word_formula hp c).symm

/-- The word array after `set_bit`. -/
theorem word_set_bit (p : pop_tp) (c : Fin 256) (i : Nat) (hi : i < 4) :
    (p.set_bit c).2.word i =
      if i = c.val / 64 then p.word i ||| (1 <<< (c.val % 64)) else p.word i := by
  have h4 : c.val / 64 < 4 := by have := c.isLt; omega
  unfold set_bit setWord word
  interval_cases i <;>
    rcases (by omega : c.val / 64 = 0 ∨ c.val / 64 = 1 ∨ c.val / 64 = 2 ∨
      c.val / 64 = 3) with h | h | h | h <;>
    simp [h]

theorem wf_set_bit {p : pop_tp} (hp : p.wf) (c : Fin 256) : (p.set_bit c).2.wf := by
  obtain ⟨h0, h1, h2, h3⟩ := hp
  have hm : (1 <<< (c.val % 64)) < 2 ^ 64 := by
    rw [Nat.one_shiftLeft]
    calc 2 ^ (c.val % 64) ≤ 2 ^ 63 := Nat.pow_le_pow_right (by decide) (by omega)
      _ < 2 ^ 64 := by decide
  unfold set_bit setWord
  rcases (by have := c.isLt; omega :
      c.val / 64 = 0 ∨ c.val / 64 = 1 ∨ c.val / 64 = 2 ∨ c.val / 64 = 3) with
      h | h | h | h <;>
    rw [h] <;>
    exact ⟨by first | exact Nat.or_lt_two_pow (by simpa [word] using ‹_›) hm | simpa [word] using h0,
      by first | exact Nat.or_lt_two_pow (by simpa [word] using ‹_›) hm | simpa [word] using h1,
      by first | exact Nat.or_lt_two_pow (by simpa [word] using ‹_›) hm | simpa [word] using h2,
      by first | exact Nat.or_lt_two_pow (by simpa [word] using ‹_›) hm | simpa [word] using h3⟩

/-- Membership after `set_bit`: the new byte plus all previous ones. -/
theorem has_set_bit (p : pop_tp) (c d : Fin 256) :
    (p.set_bit c).2.has d = (decide (d = c) || p.has d) := by
  have hd4 : d.val / 64 < 4 := by have := d.isLt; omega
  rw [has_eq_testBit, has_eq_testBit, word_set_bit p c _ hd4, Nat.one_shiftLeft]
  by_cases hw : d.val / 64 = c.val / 64
  · rw [if_pos hw, Nat.testBit_or, Nat.testBit_two_pow]
    by_cases he : d = c
    · subst he
      simp
    · have hne : ¬(c.val % 64 = d.val % 64) := by
        intro habs
        apply he
        apply Fin.ext
        omega
      simp [hne, he]
  · rw [if_neg hw]
    have he : ¬(d = c) := by
      intro habs
      subst habs
      exact hw rfl
    simp [he]

/-- A byte is in `bitsList` exactly when its bit is set. -/
theorem has_iff_mem_bitsList {p : pop_tp} (c : Fin 256) :
    p.has c = true ↔ c.val ∈ p.bitsList := by
  rw [has_eq_testBit]
  unfold bitsList
  have hc := c.isLt
  simp only [List.mem_append, mem_wordBits]
  constructor
  · intro h
    rcases (by omega : c.val < 64 ∨ (64 ≤ c.val ∧ c.val < 128) ∨
        (128 ≤ c.val ∧ c.val < 192) ∨ 192 ≤ c.val) with hr | hr | hr | hr
    · have e1 : c.val / 64 = 0 := by omega
      have e2 : c.val % 64 = c.val - 0 := by omega
      rw [e1, e2] at h
      exact Or.inl (Or.inl (Or.inl ⟨by omega, by omega, h⟩))
    · have e1 : c.val / 64 = 1 := by omega
      have e2 : c.val % 64 = c.val - 64 := by omega
      rw [e1, e2] at h
      exact Or.inl (Or.inl (Or.inr ⟨by omega, by omega, h⟩))
    · have e1 : c.val / 64 = 2 := by omega
      have e2 : c.val % 64 = c.val - 128 := by omega
      rw [e1, e2] at h
      exact Or.inl (Or.inr ⟨by omega, by omega, h⟩)
    · have e1 : c.val / 64 = 3 := by omega
      have e2 : c.val % 64 = c.val - 192 := by omega
      rw [e1, e2] at h
      exact Or.inr ⟨by omega, by omega, h⟩
  · intro h
    rcases h with ((⟨hb1, hb2, hb3⟩ | ⟨hb1, hb2, hb3⟩) | ⟨hb1, hb2, hb3⟩) |
        ⟨hb1, hb2, hb3⟩
    · have e1 : c.val / 64 = 0 := by omega
      have e2 : c.val % 64 = c.val - 0 := by omega
      rw [e1, e2]
      exact hb3
    · have e1 : c.val / 64 = 1 := by omega
      have e2 : c.val % 64 = c.val - 64 := by omega
      rw [e1, e2]
      exact hb3
    · have e1 : c.val / 64 = 2 := by omega
      have e2 : c.val % 64 = c.val - 128 := by omega
      rw [e1, e2]
      exact hb3
    · have e1 : c.val / 64 = 3 := by omega
      have e2 : c.val % 64 = c.val - 192 := by omega
      rw [e1, e2]
      exact hb3

theorem mem_wordBits_bounds {base w c : Nat} (h : c ∈ wordBits base w) :
    base ≤ c ∧ c < base + 64 :=
  ⟨(mem_wordBits.mp h).1, (mem_wordBits.mp h).2.1⟩

theorem pairwise_wordBits (base w : Nat) : (wordBits base w).Pairwise (· < ·) := by
  unfold wordBits
  exact List.Pairwise.map (fun j => base + j)
    (fun a b hab => Nat.add_lt_add_left hab base)
    ((List.pairwise_lt_range 64).filter _)

theorem pairwise_bitsList (p : pop_tp) : p.bitsList.Pairwise (· < ·) := by
  unfold bitsList
  simp only [List.pairwise_append, List.mem_append]
  refine ⟨⟨⟨pairwise_wordBits _ _, pairwise_wordBits _ _, ?_⟩,
    pairwise_wordBits _ _, ?_⟩, pairwise_wordBits _ _, ?_⟩
  · intro a ha b hb
    have h1 := mem_wordBits_bounds ha
    have h2 := mem_wordBits_bounds hb
    omega
  · intro a ha b hb
    have h2 := mem_wordBits_bounds hb
    rcases ha with ha | ha <;> have h1 := mem_wordBits_bounds ha <;> omega
  · intro a ha b hb
    have h2 := mem_wordBits_bounds hb
    rcases ha with (ha | ha) | ha <;> have h1 := mem_wordBits_bounds ha <;> omega

end pop_tp

/-- In a strictly ascending list, the element `a` sits exactly at the index
counting the elements below it. -/
theorem getElem?_countP_lt_of_pairwise {l : List Nat} (hs : l.Pairwise (· < ·))
    {a : Nat} (ha : a ∈ l) :
    l[l.countP (fun b => decide (b < a))]? = some a := by
  induction l with
  | nil => cases ha
  | cons h t ih =>
      rw [List.pairwise_cons] at hs
      rcases List.mem_cons.mp ha with rfl | hat
      · have hz : t.countP (fun b => decide (b < a)) = 0 := by
          rw [List.countP_eq_zero]
          intro x hx
          have := hs.1 x hx
          simp only [decide_eq_true_eq]
          omega
        rw [List.countP_cons]
        simp [hz]
      · have hha : h < a := hs.1 a hat
        rw [List.countP_cons]
        simp only [decide_eq_true_eq, hha, if_true]
        rw [List.getElem?_cons_succ]
        exact ih hs.2 hat

theorem insertIdx_append_left {α : Type _} (l1 l2 : List α) (a : α) (n : Nat)
    (h : n ≤ l1.length) :
    List.insertIdx n a (l1 ++ l2) = List.insertIdx n a l1 ++ l2 := by
  induction l1 generalizing n with
  | nil =>
      have hn : n = 0 := by simpa using h
      subst hn
      simp [List.insertIdx_zero]
  | cons x xs ih =>
      cases n with
      | zero => simp [List.insertIdx_zero]
      | succ n =>
          simp only [List.cons_append, List.insertIdx_succ_cons]
          rw [ih n (by simpa using h)]

theorem insertIdx_append_right {α : Type _} (l1 l2 : List α) (a : α) (n : Nat) :
    List.insertIdx (l1.length + n) a (l1 ++ l2) = l1 ++ List.insertIdx n a l2 := by
  induction l1 with
  | nil => simp
  | cons x xs ih =>
      simp only [List.cons_append, List.length_cons]
      rw [show xs.length + 1 + n = (xs.length + n) + 1 by omega,
        List.insertIdx_succ_cons, ih]

theorem insertIdx_length_cons {α : Type _} (l1 l2 : List α) (a : α) :
    List.insertIdx l1.length a (l1 ++ l2) = l1 ++ a :: l2 := by
  have h := insertIdx_append_right l1 l2 a 0
  simpa [List.insertIdx_zero] using h

namespace pop_tp

/-- Setting a clear bit inserts the byte into the sorted per-word bit list at
the position counting the set bits below it. -/
theorem wordBits_or_one_shiftLeft (base w B : Nat) (hB : B < 64)
    (hbit : w.testBit B = false) :
    wordBits base (w ||| (1 <<< B)) =
      List.insertIdx ((List.range B).countP (fun j => w.testBit j)) (base + B)
        (wordBits base w) := by
  unfold wordBits
  rw [Nat.one_shiftLeft]
  rw [show (64 : Nat) = B + (64 - B) by omega, List.range_add,
    show (64 - B : Nat) = (63 - B) + 1 by omega, List.range_succ_eq_map,
    List.map_cons]
  rw [List.filter_append, List.filter_append]
  rw [List.filter_cons_of_pos (by simp [Nat.testBit_or, Nat.testBit_two_pow]),
    List.filter_cons_of_neg (by simpa using hbit)]
  have hlow : (List.range B).filter (fun j => (w ||| 2 ^ B).testBit j)
      = (List.range B).filter (fun j => w.testBit j) := by
    apply List.filter_congr
    intro j hj
    rw [List.mem_range] at hj
    simp [Nat.testBit_or, Nat.testBit_two_pow, Nat.ne_of_gt hj]
  have hhigh : ((List.map Nat.succ (List.range (63 - B))).map (B + ·)).filter
        (fun j => (w ||| 2 ^ B).testBit j)
      = ((List.map Nat.succ (List.range (63 - B))).map (B + ·)).filter
        (fun j => w.testBit j) := by
    apply List.filter_congr
    intro x hx
    simp only [List.mem_map] at hx
    obtain ⟨y, ⟨k, _, rfl⟩, rfl⟩ := hx
    simp [Nat.testBit_or, Nat.testBit_two_pow, show B ≠ B + Nat.succ k by omega]
  rw [hlow, hhigh]
  rw [List.map_append, List.map_append, List.map_cons]
  have hk : (List.range B).countP (fun j => w.testBit j)
      = (((List.range B).filter (fun j => w.testBit j)).map
          (fun j => base + j)).length := by
    rw [List.length_map, ← List.countP_eq_length_filter]
  rw [hk, insertIdx_length_cons]
  simp

theorem rank_le_length (p : pop_tp) (c : Nat) : p.rank c ≤ p.bitsList.length :=
  List.countP_le_length _

theorem count_eq_length_bitsList {p : pop_tp} (hp : p.wf) :
    p.count = p.bitsList.length := by
  obtain ⟨h0, h1, h2, h3⟩ := hp
  unfold count bitsList
  rw [List.length_append, List.length_append, List.length_append,
    length_wordBits 0 h0, length_wordBits 64 h1, length_wordBits 128 h2,
    length_wordBits 192 h3]

theorem countP_range_prefix_le (P : Nat → Bool) {B : Nat} (hB : B ≤ 64) :
    (List.range B).countP P ≤ (List.range 64).countP P := by
  rw [show (64 : Nat) = B + (64 - B) by omega, List.range_add, List.countP_append]
  omega

/-- `set_bit` on a clear bit inserts the byte into the sorted list of set
bytes exactly at its rank. -/
theorem bitsList_set_bit {p : pop_tp} (hp : p.wf) (c : Fin 256)
    (hnot : p.has c = false) :
    (p.set_bit c).2.bitsList = List.insertIdx (p.rank c.val) c.val p.bitsList := by
  obtain ⟨h0, h1, h2, h3⟩ := hp
  have hc := c.isLt
  have htb := hnot
  rw [has_eq_testBit] at htb
  have hrank := rank_eq_word_formula ⟨h0, h1, h2, h3⟩ c
  rw [Nat.one_shiftLeft, popcount_and_two_pow_sub_one] at hrank
  have hBlt : c.val % 64 < 64 := Nat.mod_lt _ (by decide)
  rcases (by omega : c.val / 64 = 0 ∨ c.val / 64 = 1 ∨ c.val / 64 = 2 ∨
      c.val / 64 = 3) with hW | hW | hW | hW
  · -- word 0
    rw [hW] at htb hrank
    rw [sumPopBelow_zero] at hrank
    have htb' : p.w0.testBit (c.val % 64) = false := htb
    have hrank' : p.rank c.val
        = (List.range (c.val % 64)).countP (fun j => p.w0.testBit j) := hrank
    have hB : c.val % 64 = c.val := by omega
    have hset : (p.set_bit c).2 = { p with w0 := p.w0 ||| (1 <<< (c.val % 64)) } := by
      show p.setWord (c.val / 64) (p.word (c.val / 64) ||| (1 <<< (c.val % 64))) = _
      rw [hW]
      rfl
    rw [hset]
    have hbl : ({ p with w0 := p.w0 ||| (1 <<< (c.val % 64)) } : pop_tp).bitsList
        = wordBits 0 (p.w0 ||| (1 <<< (c.val % 64))) ++ wordBits 64 p.w1 ++
          wordBits 128 p.w2 ++ wordBits 192 p.w3 := rfl
    rw [hbl, wordBits_or_one_shiftLeft 0 p.w0 (c.val % 64) hBlt htb']
    unfold bitsList
    have hKle : (List.range (c.val % 64)).countP (fun j => p.w0.testBit j)
        ≤ (wordBits 0 p.w0).length := by
      rw [length_wordBits 0 h0, popcount_eq_countP 64 p.w0 h0]
      exact countP_range_prefix_le _ (by omega)
    rw [insertIdx_append_left _ _ _ _ (by
      rw [List.length_append, List.length_append]
      rw [hrank']
      omega)]
    rw [insertIdx_append_left _ _ _ _ (by
      rw [List.length_append]
      rw [hrank']
      omega)]
    rw [insertIdx_append_left _ _ _ _ (by rw [hrank']; exact hKle)]
    rw [hrank', Nat.zero_add, hB]
  · -- word 1
    rw [hW] at htb hrank
    rw [sumPopBelow_one] at hrank
    have htb' : p.w1.testBit (c.val % 64) = false := htb
    have hrank' : p.rank c.val
        = (List.range (c.val % 64)).countP (fun j => p.w1.testBit j) +
          popcount p.w0 := hrank
    have hB : 64 + c.val % 64 = c.val := by omega
    have hset : (p.set_bit c).2 = { p with w1 := p.w1 ||| (1 <<< (c.val % 64)) } := by
      show p.setWord (c.val / 64) (p.word (c.val / 64) ||| (1 <<< (c.val % 64))) = _
      rw [hW]
      rfl
    rw [hset]
    have hbl : ({ p with w1 := p.w1 ||| (1 <<< (c.val % 64)) } : pop_tp).bitsList
        = wordBits 0 p.w0 ++ wordBits 64 (p.w1 ||| (1 <<< (c.val % 64))) ++
          wordBits 128 p.w2 ++ wordBits 192 p.w3 := rfl
    rw [hbl, wordBits_or_one_shiftLeft 64 p.w1 (c.val % 64) hBlt htb', hB]
    unfold bitsList
    have hKle : (List.range (c.val % 64)).countP (fun j => p.w1.testBit j)
        ≤ (wordBits 64 p.w1).length := by
      rw [length_wordBits 64 h1, popcount_eq_countP 64 p.w1 h1]
      exact countP_range_prefix_le _ (by omega)
    have hl0 : (wordBits 0 p.w0).length = popcount p.w0 := length_wordBits 0 h0
    rw [insertIdx_append_left _ _ _ _ (by
      rw [List.length_append, List.length_append]
      rw [hrank']
      omega)]
    rw [insertIdx_append_left _ _ _ _ (by
      rw [List.length_append]
      rw [hrank']
      omega)]
    rw [show p.rank c.val = (wordBits 0 p.w0).length +
        (List.range (c.val % 64)).countP (fun j => p.w1.testBit j) from by
      rw [hrank', hl0]; omega]
    rw [insertIdx_append_right]
  · -- word 2
    rw [hW] at htb hrank
    rw [sumPopBelow_two] at hrank
    have htb' : p.w2.testBit (c.val % 64) = false := htb
    have hrank' : p.rank c.val
        = (List.range (c.val % 64)).countP (fun j => p.w2.testBit j) +
          (popcount p.w0 + popcount p.w1) := hrank
    have hB : 128 + c.val % 64 = c.val := by omega
    have hset : (p.set_bit c).2 = { p with w2 := p.w2 ||| (1 <<< (c.val % 64)) } := by
      show p.setWord (c.val / 64) (p.word (c.val / 64) ||| (1 <<< (c.val % 64))) = _
      rw [hW]
      rfl
    rw [hset]
    have hbl : ({ p with w2 := p.w2 ||| (1 <<< (c.val % 64)) } : pop_tp).bitsList
        = wordBits 0 p.w0 ++ wordBits 64 p.w1 ++
          wordBits 128 (p.w2 ||| (1 <<< (c.val % 64))) ++ wordBits 192 p.w3 := rfl
    rw [hbl, wordBits_or_one_shiftLeft 128 p.w2 (c.val % 64) hBlt htb', hB]
    unfold bitsList
    have hKle : (List.range (c.val % 64)).countP (fun j => p.w2.testBit j)
        ≤ (wordBits 128 p.w2).length := by
      rw [length_wordBits 128 h2, popcount_eq_countP 64 p.w2 h2]
      exact countP_range_prefix_le _ (by omega)
    have hl0 : (wordBits 0 p.w0).length = popcount p.w0 := length_wordBits 0 h0
    have hl1 : (wordBits 64 p.w1).length = popcount p.w1 := length_wordBits 64 h1
    rw [insertIdx_append_left _ _ _ _ (by
      rw [List.length_append, List.length_append]
      rw [hrank']
      omega)]
    rw [show p.rank c.val = (wordBits 0 p.w0 ++ wordBits 64 p.w1).length +
        (List.range (c.val % 64)).countP (fun j => p.w2.testBit j) from by
      rw [hrank', List.length_append, hl0, hl1]; omega]
    rw [insertIdx_append_right]
  · -- word 3
    rw [hW] at htb hrank
    rw [sumPopBelow_three] at hrank
    have htb' : p.w3.testBit (c.val % 64) = false := htb
    have hrank' : p.rank c.val
        = (List.range (c.val % 64)).countP (fun j => p.w3.testBit j) +
          (popcount p.w0 + popcount p.w1 + popcount p.w2) := hrank
    have hB : 192 + c.val % 64 = c.val := by omega
    have hset : (p.set_bit c).2 = { p with w3 := p.w3 ||| (1 <<< (c.val % 64)) } := by
      show p.setWord (c.val / 64) (p.word (c.val / 64) ||| (1 <<< (c.val % 64))) = _
      rw [hW]
      rfl
    rw [hset]
    have hbl : ({ p with w3 := p.w3 ||| (1 <<< (c.val % 64)) } : pop_tp).bitsList
        = wordBits 0 p.w0 ++ wordBits 64 p.w1 ++ wordBits 128 p.w2 ++
          wordBits 192 (p.w3 ||| (1 <<< (c.val % 64))) := rfl
    rw [hbl, wordBits_or_one_shiftLeft 192 p.w3 (c.val % 64) hBlt htb', hB]
    unfold bitsList
    have hl0 : (wordBits 0 p.w0).length = popcount p.w0 := length_wordBits 0 h0
    have hl1 : (wordBits 64 p.w1).length = popcount p.w1 := length_wordBits 64 h1
    have hl2 : (wordBits 128 p.w2).length = popcount p.w2 := length_wordBits 128 h2
    rw [show p.rank c.val
        = (wordBits 0 p.w0 ++ wordBits 64 p.w1 ++ wordBits 128 p.w2).length +
          (List.range (c.val % 64)).countP (fun j => p.w3.testBit j) from by
      rw [hrank', List.length_append, List.length_append, hl0, hl1, hl2]; omega]
    rw [insertIdx_append_right]

end pop_tp

/-! ### Nodes (`tktrie_node<Key, T>`)

A node's mutable state: compressed edge `skip`, presence flag and value
(`has_data` / `data`), the child bitmap `pop`, the dense child array
`children`, the byte on the edge from the parent (`parent_edge`, `'\0'` for
the root) and the `version` counter.  The `parent` back-pointer is not
represented: the functional model rebuilds nodes along the mutation path,
and the iterator model keeps an explicit ancestor stack instead. -/
inductive Node (α : Type) : Type where
  | mk (skip : List (Fin 256)) (hasData : Bool) (data : α) (pop : pop_tp)
      (children : List (Node α)) (parentEdge : Fin 256) (version : Nat) : Node α

namespace Node

def skip {α : Type} : Node α → List (Fin 256)
  | .mk s _ _ _ _ _ _ => s

def hasData {α : Type} : Node α → Bool
  | .mk _ h _ _ _ _ _ => h

def data {α : Type} : Node α → α
  | .mk _ _ d _ _ _ _ => d

def pop {α : Type} : Node α → pop_tp
  | .mk _ _ _ p _ _ _ => p

def children {α : Type} : Node α → List (Node α)
  | .mk _ _ _ _ c _ _ => c

def parentEdge {α : Type} : Node α → Fin 256
  | .mk _ _ _ _ _ e _ => e

def version {α : Type} : Node α → Nat
  | .mk _ _ _ _ _ _ v => v

end Node

/-- `tktrie_node::get_child`: look the byte up in the bitmap and index the
dense child array with the returned ordinal.  The C++ indexes
`children[idx]` unchecked; the model uses the checked `[·]?`, which never
yields `none` on a well-formed node. -/
def lookupChild {α : Type} (p : pop_tp) (ch : List (Node α)) (c : Fin 256) :
    Option (Node α) :=
  match p.find_pop c with
  | some idx => ch[idx]?
  | none => none

def Node.get_child {α : Type} (n : Node α) (c : Fin 256) : Option (Node α) :=
  lookupChild n.pop n.children c

/-- Length of the common prefix of a node's skip and the remaining key
(the `while (common < skip.size() && ...)` loop of `try_insert`). -/
def commonPrefixLen : List (Fin 256) → List (Fin 256) → Nat
  | a :: as, b :: bs => if a = b then commonPrefixLen as bs + 1 else 0
  | _, _ => 0

/-- The skip-matching check of `find_node_internal` / `try_remove`:
`key.size() - kpos < skip.size()` followed by the byte-wise comparison. -/
def matchesSkip : List (Fin 256) → List (Fin 256) → Bool
  | [], _ => true
  | _ :: _, [] => false
  | a :: as, b :: bs => a == b && matchesSkip as bs


theorem commonPrefixLen_le_left :
    ∀ (s t : List (Fin 256)), commonPrefixLen s t ≤ s.length := by
  intro s
  induction s with
  | nil => intro t; cases t <;> simp [commonPrefixLen]
  | cons a as ih =>
      intro t
      cases t with
      | nil => simp [commonPrefixLen]
      | cons b bs =>
          by_cases hab : a = b <;> simp [commonPrefixLen, hab]
          exact ih bs

theorem commonPrefixLen_le_right :
    ∀ (s t : List (Fin 256)), commonPrefixLen s t ≤ t.length := by
  intro s
  induction s with
  | nil => intro t; cases t <;> simp [commonPrefixLen]
  | cons a as ih =>
      intro t
      cases t with
      | nil => simp [commonPrefixLen]
      | cons b bs =>
          by_cases hab : a = b <;> simp [commonPrefixLen, hab]
          exact ih bs

/-- `tktrie::find_node_internal` on the remaining key `rest`: returns the
node storing the key, or `none` (the C++ returns the node only when
`has_value()` holds, else `nullptr`). -/
def findNode {α : Type} (n : Node α) (rest : List (Fin 256)) : Option (Node α) :=
  match n with
  | .mk s hd _ p ch _ _ =>
    if matchesSkip s rest then
      match hm : rest.drop s.length with
      | [] => if hd then some n else none
      | c :: rest' =>
          match lookupChild p ch c with
          | some child => findNode child rest'
          | none => none
    else none
termination_by rest.length
decreasing_by
  have hlen := congrArg List.length hm
  simp [List.length_drop] at hlen
  simp
  omega

/-- `tktrie::try_insert` on the remaining key `rest` — the success path,
which is the path always taken when no concurrent writer interferes (every
version re-check passes).  Returns the rebuilt subtree and `was_new`.
The C++ mutates `cur` in place; the model rebuilds the node, replacing the
descended child at its ordinal index in the Case-E step. -/
def insertNode {α : Type} [Inhabited α] (n : Node α) (rest : List (Fin 256))
    (v : α) : Node α × Bool :=
  match n with
  | .mk s hd d p ch e ver =>
    let common := commonPrefixLen s rest
    if h1 : common = rest.length ∧ common = s.length then
      -- Case A: exact match; a no-op when the value is already present
      (.mk s true (if hd then d else v) p ch e (ver + 1), !hd)
    else if h2 : common = rest.length then
      -- Case B: key ends inside the skip; split, keeping the old tail as
      -- the single child of the node that now carries the new value
      let child : Node α := .mk (s.drop (common + 1)) hd d p ch (s.getD common 0) 0
      let r1 := pop_tp.zero.set_bit (s.getD common 0)
      (.mk (s.take common) true v r1.2 (List.insertIdx r1.1 child []) e (ver + 1),
       true)
    else if h3 : common = s.length then
      let c := rest.getD common 0
      match lookupChild p ch c with
      | some child =>
          -- Case E: skip fully matched, child exists: descend
          let r := insertNode child (rest.drop (common + 1)) v
          (.mk s hd d p (ch.set ((p.find_pop c).getD 0) r.1) e ver, r.2)
      | none =>
          -- Case C: skip fully matched, no child on this byte: new leaf
          let r := p.set_bit c
          let newc : Node α := .mk (rest.drop (common + 1)) true v pop_tp.zero [] c 0
          (.mk s hd d r.2 (List.insertIdx r.1 newc ch) e (ver + 1), true)
    else
      -- Case D: mismatch inside the skip: split into two children carrying
      -- the displaced tail and the new leaf
      let old_child : Node α := .mk (s.drop (common + 1)) hd d p ch (s.getD common 0) 0
      let new_child : Node α :=
        .mk (rest.drop (common + 1)) true v pop_tp.zero [] (rest.getD common 0) 0
      let r1 := pop_tp.zero.set_bit (s.getD common 0)
      let ch1 := List.insertIdx r1.1 old_child []
      let r2 := r1.2.set_bit (rest.getD common 0)
      let ch2 := List.insertIdx r2.1 new_child ch1
      (.mk (s.take common) false default r2.2 ch2 e (ver + 1), true)
termination_by rest.length
decreasing_by
  have hcl := commonPrefixLen_le_right s rest
  simp [List.length_drop]
  omega

/-- `tktrie::try_remove` on the remaining key `rest` — the success path.
Returns the rebuilt subtree when a value was removed, `none` when the key
is absent (in which case the C++ touches nothing). -/
def eraseNode {α : Type} [Inhabited α] (n : Node α) (rest : List (Fin 256)) :
    Option (Node α) :=
  match n with
  | .mk s hd d p ch e ver =>
    if matchesSkip s rest then
      match hm : rest.drop s.length with
      | [] =>
          if hd then some (.mk s false default p ch e (ver + 1)) else none
      | c :: rest' =>
          match lookupChild p ch c with
          | some child =>
              (eraseNode child rest').map (fun child' =>
                .mk s hd d p (ch.set ((p.find_pop c).getD 0) child') e ver)
          | none => none
    else none
termination_by rest.length
decreasing_by
  have hlen := congrArg List.length hm
  simp [List.length_drop] at hlen
  simp
  omega

/-! ### The trie (`tktrie<Key, T>`) -/

/-- Top-level state: the root node (`head`) and the element counter
(`elem_count`). -/
structure Trie (α : Type) where
  head : Node α
  elemCount : Nat

/-- A default-constructed `tktrie`: default-constructed root, zero count. -/
def Trie.init (α : Type) [Inhabited α] : Trie α :=
  ⟨.mk [] false default pop_tp.zero [] 0 0, 0⟩

/-- `tktrie::insert` (via `insert_impl`, whose first `try_insert` attempt
always succeeds single-threaded): returns the new state and `inserted`. -/
def Trie.insertOp {α : Type} [Inhabited α] (t : Trie α) (k : List (Fin 256))
    (v : α) : Trie α × Bool :=
  let r := insertNode t.head k v
  (⟨r.1, if r.2 then t.elemCount + 1 else t.elemCount⟩, r.2)

/-- `tktrie::erase(key)` (via `try_remove`, first attempt always succeeds
single-threaded): returns the new state and the count `{0, 1}`. -/
def Trie.eraseOp {α : Type} [Inhabited α] (t : Trie α) (k : List (Fin 256)) :
    Trie α × Nat :=
  match eraseNode t.head k with
  | some h' => (⟨h', t.elemCount - 1⟩, 1)
  | none => (t, 0)

/-- The value observed through `tktrie::find` (absent, or the stored data
of the found node). -/
def Trie.findVal {α : Type} (t : Trie α) (k : List (Fin 256)) : Option α :=
  (findNode t.head k).map Node.data

/-- `tktrie::size` (`elem_count` load). -/
def Trie.size {α : Type} (t : Trie α) : Nat := t.elemCount

/-- `tktrie::clear`: delete all children, reset `pop`/`skip`/`has_data`/
`data` on the root, bump its version, zero the count.  The root's
`parent_edge` is untouched by the C++. -/
def Trie.clearOp {α : Type} [Inhabited α] (t : Trie α) : Trie α :=
  ⟨.mk [] false default pop_tp.zero [] t.head.parentEdge (t.head.version + 1), 0⟩

/-! ### Operation sequences and the reference map -/

/-- A single-threaded client operation. -/
inductive Op (α : Type) where
  | ins (k : List (Fin 256)) (v : α)
  | del (k : List (Fin 256))

def Trie.applyOp {α : Type} [Inhabited α] (t : Trie α) : Op α → Trie α
  | .ins k v => (t.insertOp k v).1
  | .del k => (t.eraseOp k).1

/-- Run a sequence of operations from a freshly constructed trie. -/
def Trie.run {α : Type} [Inhabited α] (ops : List (Op α)) : Trie α :=
  ops.foldl Trie.applyOp (Trie.init α)

/-- Lookup in the reference model: an association list, where insert is a
no-op on a present key (the trie's insert does not overwrite) and erase
removes the key. -/
def specLookup {α : Type} (m : List (List (Fin 256) × α))
    (k : List (Fin 256)) : Option α :=
  match m with
  | [] => none
  | kv :: m' => if k = kv.1 then some kv.2 else specLookup m' k

def specApply {α : Type} (m : List (List (Fin 256) × α)) :
    Op α → List (List (Fin 256) × α)
  | .ins k v => if (specLookup m k).isSome then m else (k, v) :: m
  | .del k => m.filter (fun kv => kv.1 ≠ k)

def specRun {α : Type} (ops : List (Op α)) : List (List (Fin 256) × α) :=
  ops.foldl specApply []

/-! ### Well-formedness of a node tree -/

/-- The structural invariant relating each node's bitmap and child array:
the words are 64-bit, and the parent edges of `children`, in order, are
exactly the set bytes of `pop` in ascending order (so in particular
`pop.count() = children.size()`).  It holds recursively for all children. -/
inductive Node.WF {α : Type} : Node α → Prop where
  | mk : ∀ (s : List (Fin 256)) (hd : Bool) (d : α) (p : pop_tp)
      (ch : List (Node α)) (e : Fin 256) (ver : Nat),
      p.wf →
      ch.map (fun x => (x.parentEdge : Nat)) = p.bitsList →
      (∀ x ∈ ch, Node.WF x) →
      Node.WF (.mk s hd d p ch e ver)

theorem Node.WF.pop_wf {α : Type} {n : Node α} (h : n.WF) : n.pop.wf := by
  cases h
  assumption

theorem Node.WF.corr {α : Type} {n : Node α} (h : n.WF) :
    n.children.map (fun x => (x.parentEdge : Nat)) = n.pop.bitsList := by
  cases h
  assumption

theorem Node.WF.child {α : Type} {n : Node α} (h : n.WF) :
    ∀ x ∈ n.children, Node.WF x := by
  cases h
  assumption

/-! ### Support lemmas for child lookup and rebuild -/

theorem map_insertIdx {α β : Type _} (f : α → β) (a : α) :
    ∀ (n : Nat) (l : List α),
      (List.insertIdx n a l).map f = List.insertIdx n (f a) (l.map f)
  | 0, l => by simp [List.insertIdx_zero]
  | n + 1, [] => by simp [List.insertIdx_succ_nil]
  | n + 1, x :: xs => by
      simp only [List.insertIdx_succ_cons, List.map_cons]
      rw [map_insertIdx f a n xs]

theorem set_eq_self_of_getElem? {α : Type _} :
    ∀ (l : List α) (i : Nat) (a : α), l[i]? = some a → l.set i a = l
  | [], i, a, h => by simp at h
  | x :: xs, 0, a, h => by
      simp at h
      simp [List.set, h]
  | x :: xs, i + 1, a, h => by
      simp at h
      simp [List.set, set_eq_self_of_getElem? xs i a h]

theorem countP_lt_length_of_mem {l : List Nat} {d : Nat} (hd : d ∈ l) :
    l.countP (fun b => decide (b < d)) < l.length := by
  rcases Nat.lt_or_ge (l.countP (fun b => decide (b < d))) l.length with h | h
  · exact h
  · exfalso
    have he : l.countP (fun b => decide (b < d)) = l.length :=
      Nat.le_antisymm (List.countP_le_length _) h
    have := (List.countP_eq_length.mp he) d hd
    simp at this

theorem countP_lt_of_mem_lt {l : List Nat} {d c : Nat} (hd : d ∈ l) (hdc : d < c) :
    l.countP (fun b => decide (b < d)) < l.countP (fun b => decide (b < c)) := by
  induction l with
  | nil => cases hd
  | cons x t ih =>
      rw [List.countP_cons, List.countP_cons]
      rcases List.mem_cons.mp hd with rfl | hdt
      · have hm : t.countP (fun b => decide (b < d))
            ≤ t.countP (fun b => decide (b < c)) := by
          apply List.countP_mono_left
          intro b _ hb
          simp only [decide_eq_true_eq] at hb ⊢
          omega
        simp only [decide_eq_true_eq]
        rw [if_neg (by omega), if_pos (by omega)]
        omega
      · have := ih hdt
        have hpt : ∀ b : Nat, (decide (b < d) = true) → (decide (b < c) = true) := by
          intro b hb
          simp only [decide_eq_true_eq] at hb ⊢
          omega
        by_cases hx : x < d
        · rw [if_pos (by simpa using hx), if_pos (by simp; omega)]
          omega
        · rw [if_neg (by simpa using hx)]
          split <;> omega

theorem countP_le_of_le {l : List Nat} {c d : Nat} (h : c ≤ d) :
    l.countP (fun b => decide (b < c)) ≤ l.countP (fun b => decide (b < d)) := by
  apply List.countP_mono_left
  intro b _ hb
  simp only [decide_eq_true_eq] at hb ⊢
  omega

/-- In a strictly ascending list the element at index `i` has exactly `i`
elements below it. -/
theorem countP_lt_getElem_of_pairwise :
    ∀ {l : List Nat}, l.Pairwise (· < ·) → ∀ {i : Nat} (hi : i < l.length),
      l.countP (fun b => decide (b < l[i])) = i := by
  intro l
  induction l with
  | nil => intro _ i hi; simp at hi
  | cons x t ih =>
      intro hs i hi
      rw [List.pairwise_cons] at hs
      cases i with
      | zero =>
          rw [List.countP_cons]
          simp only [List.getElem_cons_zero]
          rw [if_neg (by simp)]
          rw [List.countP_eq_zero.mpr]
          intro a ha
          have := hs.1 a ha
          simp only [decide_eq_true_eq]
          omega
      | succ i =>
          have hi' : i < t.length := by simpa using hi
          rw [List.countP_cons]
          simp only [List.getElem_cons_succ]
          have hit : t[i] ∈ t := List.getElem_mem hi'
          have hxlt : x < t[i] := hs.1 _ hit
          rw [if_pos (by simpa using hxlt)]
          rw [ih hs.2 hi']

namespace pop_tp

theorem find_pop_none_iff (p : pop_tp) (c : Fin 256) :
    p.find_pop c = none ↔ p.has c = false := by
  unfold find_pop has
  by_cases h : p.word (c.val / 64) &&& (1 <<< (c.val % 64)) = 0 <;> simp [h]

theorem zero_word (i : Nat) : pop_tp.zero.word i = 0 := by
  rcases i with _ | _ | _ | i <;> rfl

theorem has_zero (c : Fin 256) : pop_tp.zero.has c = false := by
  rw [has_eq_testBit, zero_word]
  simp

theorem wf_zero : pop_tp.zero.wf := by
  refine ⟨?_, ?_, ?_, ?_⟩ <;> decide

theorem bitsList_zero : pop_tp.zero.bitsList = [] := by decide

theorem rank_zero (c : Nat) : pop_tp.zero.rank c = 0 := by
  unfold rank
  rw [bitsList_zero]
  rfl

theorem bitsList_getElem_rank {p : pop_tp} (c : Fin 256) (h : p.has c = true) :
    p.bitsList[p.rank c.val]? = some c.val := by
  unfold rank
  exact getElem?_countP_lt_of_pairwise (pairwise_bitsList p)
    ((has_iff_mem_bitsList c).mp h)

theorem rank_lt_length_of_has {p : pop_tp} (c : Fin 256) (h : p.has c = true) :
    p.rank c.val < p.bitsList.length :=
  countP_lt_length_of_mem ((has_iff_mem_bitsList c).mp h)

theorem rank_lt_rank_of_has_lt {p : pop_tp} {c d : Fin 256} (h : p.has d = true)
    (hlt : d.val < c.val) : p.rank d.val < p.rank c.val :=
  countP_lt_of_mem_lt ((has_iff_mem_bitsList d).mp h) hlt

theorem rank_le_rank_of_le {p : pop_tp} {c d : Nat} (h : c ≤ d) :
    p.rank c ≤ p.rank d :=
  countP_le_of_le h

/-- `set_bit` shifts the rank of later bytes up by one. -/
theorem rank_set_bit {p : pop_tp} (hp : p.wf) (c : Fin 256)
    (hnot : p.has c = false) (d : Nat) :
    (p.set_bit c).2.rank d = p.rank d + if c.val < d then 1 else 0 := by
  unfold rank
  rw [bitsList_set_bit hp c hnot]
  have hperm := List.perm_insertIdx c.val p.bitsList (rank_le_length p c.val)
  rw [hperm.countP_eq, List.countP_cons]
  simp

/-- Rank of the byte just set is unchanged. -/
theorem rank_set_bit_self {p : pop_tp} (hp : p.wf) (c : Fin 256)
    (hnot : p.has c = false) :
    (p.set_bit c).2.rank c.val = p.rank c.val := by
  rw [rank_set_bit hp c hnot]
  simp

end pop_tp

/-! ### lookupChild under the structural invariant -/

theorem lookupChild_eq_none {α : Type} (p : pop_tp) (ch : List (Node α))
    {c : Fin 256} (hc : p.has c = false) : lookupChild p ch c = none := by
  unfold lookupChild
  rw [(pop_tp.find_pop_none_iff p c).mpr hc]

theorem lookupChild_eq_getElem {α : Type} {p : pop_tp} (hp : p.wf)
    (ch : List (Node α)) {c : Fin 256} (hc : p.has c = true) :
    lookupChild p ch c = ch[p.rank c.val]? := by
  unfold lookupChild
  rw [pop_tp.find_pop_eq hp c, hc]
  simp

/-- Length transfer through the edge correspondence. -/
theorem corr_length {α : Type} {p : pop_tp} {ch : List (Node α)}
    (hcorr : ch.map (fun x => (x.parentEdge : Nat)) = p.bitsList) :
    ch.length = p.bitsList.length := by
  rw [← hcorr, List.length_map]

theorem lookupChild_some {α : Type} {p : pop_tp} (hp : p.wf)
    {ch : List (Node α)}
    (hcorr : ch.map (fun x => (x.parentEdge : Nat)) = p.bitsList)
    {c : Fin 256} (hc : p.has c = true) :
    ∃ child, lookupChild p ch c = some child ∧ child ∈ ch ∧
      child.parentEdge = c ∧ ch[p.rank c.val]? = some child := by
  have hlt : p.rank c.val < ch.length := by
    rw [corr_length hcorr]
    exact pop_tp.rank_lt_length_of_has c hc
  have hchild : ch[p.rank c.val]? = some (ch.get ⟨p.rank c.val, hlt⟩) :=
    List.getElem?_eq_getElem hlt
  have hmap := pop_tp.bitsList_getElem_rank c hc
  rw [← hcorr, List.getElem?_map, hchild] at hmap
  have hval : ((ch.get ⟨p.rank c.val, hlt⟩).parentEdge : Nat) = c.val := by
    simpa using hmap
  refine ⟨ch.get ⟨p.rank c.val, hlt⟩, ?_, List.getElem_mem hlt, Fin.ext hval,
    hchild⟩
  rw [lookupChild_eq_getElem hp ch hc, hchild]

/-- The Case-E rebuild: replacing the child at the looked-up slot. -/
theorem lookupChild_set {α : Type} {p : pop_tp} (hp : p.wf)
    {ch : List (Node α)}
    (hcorr : ch.map (fun x => (x.parentEdge : Nat)) = p.bitsList)
    {c : Fin 256} (hc : p.has c = true) (x : Node α) (d : Fin 256) :
    lookupChild p (ch.set (p.rank c.val) x) d =
      if d = c then some x else lookupChild p ch d := by
  have hlt : p.rank c.val < ch.length := by
    rw [corr_length hcorr]
    exact pop_tp.rank_lt_length_of_has c hc
  by_cases hd : p.has d = true
  · rw [lookupChild_eq_getElem hp _ hd, lookupChild_eq_getElem hp ch hd]
    by_cases hdc : d = c
    · subst hdc
      rw [if_pos rfl]
      rw [List.getElem?_set_self (by simpa using hlt)]
    · rw [if_neg hdc]
      have hne : p.rank c.val ≠ p.rank d.val := by
        intro habs
        have h1 := pop_tp.bitsList_getElem_rank c hc
        have h2 := pop_tp.bitsList_getElem_rank d hd
        rw [habs] at h1
        rw [h1] at h2
        have hv : (c : Nat) = (d : Nat) := by simpa using h2
        exact hdc (Fin.ext hv.symm)
      rw [List.getElem?_set_ne hne]
  · rw [Bool.not_eq_true] at hd
    rw [lookupChild_eq_none _ _ hd, lookupChild_eq_none _ _ hd]
    rw [if_neg]
    intro habs
    subst habs
    rw [hd] at hc
    cases hc

/-- The Case-C/B/D rebuild: inserting a fresh child at the index returned
by `set_bit`. -/
theorem lookupChild_insert {α : Type} {p : pop_tp} (hp : p.wf)
    {ch : List (Node α)}
    (hcorr : ch.map (fun x => (x.parentEdge : Nat)) = p.bitsList)
    {c : Fin 256} (hnot : p.has c = false) (newc : Node α) (d : Fin 256) :
    lookupChild (p.set_bit c).2 (List.insertIdx (p.set_bit c).1 newc ch) d =
      if d = c then some newc else lookupChild p ch d := by
  have hp' := pop_tp.wf_set_bit hp c
  have hkle : (p.set_bit c).1 ≤ ch.length := by
    rw [pop_tp.set_bit_fst hp c, corr_length hcorr]
    exact pop_tp.rank_le_length p c.val
  have hlen : (List.insertIdx (p.set_bit c).1 newc ch).length = ch.length + 1 :=
    List.length_insertIdx _ _ hkle
  by_cases hd : d = c
  · subst hd
    rw [if_pos rfl]
    have hhas : (p.set_bit d).2.has d = true := by
      rw [pop_tp.has_set_bit]
      simp
    rw [lookupChild_eq_getElem hp' _ hhas]
    rw [pop_tp.rank_set_bit_self hp d hnot, ← pop_tp.set_bit_fst hp d]
    rw [List.getElem?_eq_getElem (by omega)]
    rw [List.getElem_insertIdx_self _ _ _ hkle]
  · rw [if_neg hd]
    by_cases hhd : p.has d = true
    · have hhas' : (p.set_bit c).2.has d = true := by
        rw [pop_tp.has_set_bit]
        simp [hhd]
      rw [lookupChild_eq_getElem hp' _ hhas', lookupChild_eq_getElem hp ch hhd]
      rw [pop_tp.rank_set_bit hp c hnot]
      have hrle : p.rank d.val < ch.length := by
        rw [corr_length hcorr]
        exact pop_tp.rank_lt_length_of_has d hhd
      have hdval : d.val ≠ c.val := fun habs => hd (Fin.ext habs)
      by_cases hcd : c.val < d.val
      · rw [if_pos hcd]
        have hcr : p.rank c.val ≤ p.rank d.val :=
          pop_tp.rank_le_rank_of_le (by omega)
        rw [pop_tp.set_bit_fst hp c] at hlen hkle ⊢
        have hm : p.rank d.val = p.rank c.val + (p.rank d.val - p.rank c.val) := by
          omega
        rw [hm]
        rw [List.getElem?_eq_getElem (by omega),
          List.getElem?_eq_getElem
            (by omega : p.rank c.val + (p.rank d.val - p.rank c.val) < ch.length)]
        rw [List.getElem_insertIdx_add_succ]
      · rw [if_neg hcd]
        simp only [Nat.add_zero]
        have hdlt : p.rank d.val < p.rank c.val :=
          pop_tp.rank_lt_rank_of_has_lt hhd (by omega)
        rw [pop_tp.set_bit_fst hp c] at hlen hkle ⊢
        rw [List.getElem?_eq_getElem (by omega),
          List.getElem?_eq_getElem hrle]
        rw [List.getElem_insertIdx_of_lt _ _ _ _ hdlt hrle]
    · rw [Bool.not_eq_true] at hhd
      have hhas' : (p.set_bit c).2.has d = false := by
        rw [pop_tp.has_set_bit]
        simp [hhd, hd]
      rw [lookupChild_eq_none _ _ hhas', lookupChild_eq_none _ _ hhd]

/-- Edge correspondence is preserved by the set-and-insert rebuild. -/
theorem corr_insert {α : Type} {p : pop_tp} (hp : p.wf) {ch : List (Node α)}
    (hcorr : ch.map (fun x => (x.parentEdge : Nat)) = p.bitsList)
    {c : Fin 256} (hnot : p.has c = false) {newc : Node α}
    (he : newc.parentEdge = c) :
    (List.insertIdx (p.set_bit c).1 newc ch).map (fun x => (x.parentEdge : Nat))
      = (p.set_bit c).2.bitsList := by
  rw [map_insertIdx, hcorr, he, pop_tp.set_bit_fst hp c,
    pop_tp.bitsList_set_bit hp c hnot]

/-- Edge correspondence is preserved by the Case-E rebuild (the replacement
has the same parent edge as the replaced child). -/
theorem corr_set {α : Type} {p : pop_tp} (hp : p.wf) {ch : List (Node α)}
    (hcorr : ch.map (fun x => (x.parentEdge : Nat)) = p.bitsList)
    {c : Fin 256} (hc : p.has c = true) {x : Node α} (he : x.parentEdge = c) :
    (ch.set (p.rank c.val) x).map (fun x => (x.parentEdge : Nat)) = p.bitsList := by
  rw [List.map_set, hcorr, he]
  exact set_eq_self_of_getElem? _ _ _ (pop_tp.bitsList_getElem_rank c hc)

/-! ### Skip matching and common-prefix lemmas -/

theorem matchesSkip_append_self (s t : List (Fin 256)) :
    matchesSkip s (s ++ t) = true := by
  induction s with
  | nil => rfl
  | cons a as ih => simp [matchesSkip, ih]

theorem matchesSkip_self (s : List (Fin 256)) : matchesSkip s s = true := by
  simpa using matchesSkip_append_self s []

theorem matchesSkip_append_cancel (a x y : List (Fin 256)) :
    matchesSkip (a ++ x) (a ++ y) = matchesSkip x y := by
  induction a with
  | nil => rfl
  | cons h t ih => simp [matchesSkip, ih]

theorem matchesSkip_eq_append {s k : List (Fin 256)}
    (h : matchesSkip s k = true) : k = s ++ k.drop s.length := by
  induction s generalizing k with
  | nil => simp
  | cons a as ih =>
      cases k with
      | nil => simp [matchesSkip] at h
      | cons b bs =>
          simp only [matchesSkip, Bool.and_eq_true, beq_iff_eq] at h
          obtain ⟨hab, hm⟩ := h
          subst hab
          simp only [List.length_cons, List.drop_succ_cons, List.cons_append,
            List.cons.injEq, true_and]
          exact ih hm

/-- Shape of an arbitrary key relative to a node's skip. -/
theorem key_cases (s k : List (Fin 256)) :
    matchesSkip s k = false ∨ k = s ∨ ∃ c r, k = s ++ c :: r := by
  by_cases h : matchesSkip s k = true
  · have hk := matchesSkip_eq_append h
    cases hdrop : k.drop s.length with
    | nil =>
        right; left
        rw [hk, hdrop, List.append_nil]
    | cons c r =>
        right; right
        exact ⟨c, r, by rw [hk, hdrop]⟩
  · left
    exact Bool.not_eq_true _ ▸ h

theorem matchesSkip_of_full :
    ∀ (s t : List (Fin 256)), commonPrefixLen s t = s.length →
      matchesSkip s t = true := by
  intro s
  induction s with
  | nil => intro t _; rfl
  | cons a as ih =>
      intro t h
      cases t with
      | nil => simp [commonPrefixLen] at h
      | cons b bs =>
          by_cases hab : a = b
          · subst hab
            simp [commonPrefixLen] at h
            simp [matchesSkip, ih bs (by omega)]
          · simp [commonPrefixLen, hab] at h

theorem commonPrefixLen_full_of_matches :
    ∀ (s t : List (Fin 256)), matchesSkip s t = true →
      commonPrefixLen s t = s.length := by
  intro s
  induction s with
  | nil => intro t _; rfl
  | cons a as ih =>
      intro t h
      cases t with
      | nil => simp [matchesSkip] at h
      | cons b bs =>
          simp only [matchesSkip, Bool.and_eq_true, beq_iff_eq] at h
          obtain ⟨hab, hm⟩ := h
          subst hab
          simp [commonPrefixLen, ih bs hm]

theorem not_matchesSkip_of_lt {s t : List (Fin 256)}
    (h : commonPrefixLen s t < s.length) : matchesSkip s t = false := by
  by_cases hm : matchesSkip s t = true
  · rw [commonPrefixLen_full_of_matches s t hm] at h
    omega
  · exact Bool.not_eq_true _ ▸ hm

theorem take_commonPrefixLen :
    ∀ (s t : List (Fin 256)),
      s.take (commonPrefixLen s t) = t.take (commonPrefixLen s t) := by
  intro s
  induction s with
  | nil => intro t; rfl
  | cons a as ih =>
      intro t
      cases t with
      | nil => rfl
      | cons b bs =>
          by_cases hab : a = b
          · subst hab
            simp [commonPrefixLen, ih bs]
          · simp [commonPrefixLen, hab]

theorem eq_of_commonPrefixLen_full {s t : List (Fin 256)}
    (h1 : commonPrefixLen s t = s.length) (h2 : commonPrefixLen s t = t.length) :
    s = t := by
  have h3 : s.length = t.length := by rw [← h1, h2]
  have h4 := take_commonPrefixLen s t
  rw [h1, List.take_length] at h4
  rw [h4, h3, List.take_length]

theorem commonPrefixLen_ne :
    ∀ (s t : List (Fin 256)), commonPrefixLen s t < s.length →
      commonPrefixLen s t < t.length →
      s.getD (commonPrefixLen s t) 0 ≠ t.getD (commonPrefixLen s t) 0 := by
  intro s
  induction s with
  | nil => intro t h _; simp at h
  | cons a as ih =>
      intro t h1 h2
      cases t with
      | nil => simp at h2
      | cons b bs =>
          by_cases hab : a = b
          · subst hab
            simp only [commonPrefixLen, if_pos rfl] at h1 h2 ⊢
            have h1' : commonPrefixLen as bs < as.length := by
              simpa using h1
            have h2' : commonPrefixLen as bs < bs.length := by
              simpa using h2
            simpa using ih bs h1' h2'
          · simp only [commonPrefixLen, if_neg hab]
            simpa using hab

theorem take_getD_drop :
    ∀ (l : List (Fin 256)) (i : Nat), i < l.length →
      l.take i ++ l.getD i 0 :: l.drop (i + 1) = l := by
  intro l
  induction l with
  | nil => intro i hi; simp at hi
  | cons x xs ih =>
      intro i hi
      cases i with
      | zero => simp
      | succ i =>
          simp only [List.take_succ_cons, List.getD_cons_succ,
            List.drop_succ_cons, List.cons_append, List.cons.injEq, true_and]
          exact ih i (by simpa using hi)

/-! ### findNode unfolding -/

theorem findNode_not_match {α : Type} (s : List (Fin 256)) (hd : Bool) (d : α)
    (p : pop_tp) (ch : List (Node α)) (e : Fin 256) (ver : Nat)
    {k : List (Fin 256)} (h : matchesSkip s k = false) :
    findNode (.mk s hd d p ch e ver) k = none := by
  rw [findNode]
  simp [h]

theorem findNode_self {α : Type} (s : List (Fin 256)) (hd : Bool) (d : α)
    (p : pop_tp) (ch : List (Node α)) (e : Fin 256) (ver : Nat) :
    findNode (.mk s hd d p ch e ver) s =
      if hd then some (Node.mk s hd d p ch e ver) else none := by
  rw [findNode]
  rw [if_pos (matchesSkip_self s)]
  split
  · rfl
  · rename_i c rest' hm
    rw [List.drop_length] at hm
    cases hm

theorem findNode_cons_some {α : Type} (s : List (Fin 256)) (hd : Bool) (d : α)
    (p : pop_tp) (ch : List (Node α)) (e : Fin 256) (ver : Nat) (c : Fin 256)
    (r : List (Fin 256)) {child : Node α}
    (hc : lookupChild p ch c = some child) :
    findNode (.mk s hd d p ch e ver) (s ++ c :: r) = findNode child r := by
  rw [findNode]
  rw [if_pos (matchesSkip_append_self s (c :: r))]
  split
  · rename_i hm
    rw [List.drop_left] at hm
    cases hm
  · rename_i c1 rest' hm
    rw [List.drop_left] at hm
    cases hm
    rw [hc]

theorem findNode_cons_none {α : Type} (s : List (Fin 256)) (hd : Bool) (d : α)
    (p : pop_tp) (ch : List (Node α)) (e : Fin 256) (ver : Nat) (c : Fin 256)
    (r : List (Fin 256)) (hc : lookupChild p ch c = none) :
    findNode (.mk s hd d p ch e ver) (s ++ c :: r) = none := by
  rw [findNode]
  rw [if_pos (matchesSkip_append_self s (c :: r))]
  split
  · rename_i hm
    rw [List.drop_left] at hm
    cases hm
  · rename_i c1 rest' hm
    rw [List.drop_left] at hm
    cases hm
    rw [hc]

/-- The value stored in a subtree for a remaining key. -/
def subVal {α : Type} (n : Node α) (k : List (Fin 256)) : Option α :=
  (findNode n k).map Node.data

theorem subVal_not_match {α : Type} (s : List (Fin 256)) (hd : Bool) (d : α)
    (p : pop_tp) (ch : List (Node α)) (e : Fin 256) (ver : Nat)
    {k : List (Fin 256)} (h : matchesSkip s k = false) :
    subVal (.mk s hd d p ch e ver) k = none := by
  unfold subVal
  rw [findNode_not_match s hd d p ch e ver h]
  rfl

theorem subVal_self {α : Type} (s : List (Fin 256)) (hd : Bool) (d : α)
    (p : pop_tp) (ch : List (Node α)) (e : Fin 256) (ver : Nat) :
    subVal (.mk s hd d p ch e ver) s = if hd then some d else none := by
  unfold subVal
  rw [findNode_self]
  cases hd <;> simp [Node.data]

theorem subVal_cons_some {α : Type} (s : List (Fin 256)) (hd : Bool) (d : α)
    (p : pop_tp) (ch : List (Node α)) (e : Fin 256) (ver : Nat) (c : Fin 256)
    (r : List (Fin 256)) {child : Node α}
    (hc : lookupChild p ch c = some child) :
    subVal (.mk s hd d p ch e ver) (s ++ c :: r) = subVal child r := by
  unfold subVal
  rw [findNode_cons_some s hd d p ch e ver c r hc]

theorem subVal_cons_none {α : Type} (s : List (Fin 256)) (hd : Bool) (d : α)
    (p : pop_tp) (ch : List (Node α)) (e : Fin 256) (ver : Nat) (c : Fin 256)
    (r : List (Fin 256)) (hc : lookupChild p ch c = none) :
    subVal (.mk s hd d p ch e ver) (s ++ c :: r) = none := by
  unfold subVal
  rw [findNode_cons_none s hd d p ch e ver c r hc]
  rfl

/-- Looking up below a split point: the stored values only depend on the
tail of the skip, not on how the key prefix was consumed. -/
theorem subVal_shift {α : Type} (s0 : List (Fin 256)) (ec : Fin 256)
    (s2 : List (Fin 256)) (hd : Bool) (d : α) (p : pop_tp)
    (ch : List (Node α)) (e e' : Fin 256) (ver ver' : Nat)
    (k2 : List (Fin 256)) :
    subVal (.mk (s0 ++ ec :: s2) hd d p ch e ver) (s0 ++ ec :: k2)
      = subVal (.mk s2 hd d p ch e' ver') k2 := by
  rcases key_cases s2 k2 with h | h | ⟨c, r, h⟩
  · have h' : matchesSkip (s0 ++ ec :: s2) (s0 ++ ec :: k2) = false := by
      rw [show s0 ++ ec :: s2 = s0 ++ [ec] ++ s2 by simp,
        show s0 ++ ec :: k2 = s0 ++ [ec] ++ k2 by simp,
        matchesSkip_append_cancel]
      exact h
    rw [subVal_not_match _ _ _ _ _ _ _ h', subVal_not_match _ _ _ _ _ _ _ h]
  · subst h
    rw [subVal_self, subVal_self]
  · subst h
    rw [show s0 ++ ec :: (s2 ++ c :: r) = (s0 ++ ec :: s2) ++ c :: r by simp]
    cases hc : lookupChild p ch c with
    | some child =>
        rw [subVal_cons_some _ _ _ _ _ _ _ c r hc,
          subVal_cons_some _ _ _ _ _ _ _ c r hc]
    | none =>
        rw [subVal_cons_none _ _ _ _ _ _ _ c r hc,
          subVal_cons_none _ _ _ _ _ _ _ c r hc]

/-- Lookup in a fresh leaf: only its own skip stores a value. -/
theorem subVal_leaf {α : Type} (sk : List (Fin 256)) (v : α) (e : Fin 256)
    (ver : Nat) (k : List (Fin 256)) :
    subVal (.mk sk true v pop_tp.zero [] e ver) k =
      if k = sk then some v else none := by
  rcases key_cases sk k with h | h | ⟨c, r, h⟩
  · rw [subVal_not_match _ _ _ _ _ _ _ h, if_neg]
    intro habs
    subst habs
    rw [matchesSkip_self] at h
    cases h
  · subst h
    rw [subVal_self]
    simp
  · subst h
    rw [subVal_cons_none _ _ _ _ _ _ _ c r
      (lookupChild_eq_none _ _ (pop_tp.has_zero c)), if_neg]
    intro habs
    have := congrArg List.length habs
    simp at this

/-! ### Case unfoldings of insertNode and eraseNode -/

theorem insertNode_caseA {α : Type} [Inhabited α] (s : List (Fin 256)) (hd : Bool)
    (d : α) (p : pop_tp) (ch : List (Node α)) (e : Fin 256) (ver : Nat)
    (rest : List (Fin 256)) (v : α)
    (h1 : commonPrefixLen s rest = rest.length ∧ commonPrefixLen s rest = s.length) :
    insertNode (.mk s hd d p ch e ver) rest v
      = (.mk s true (if hd then d else v) p ch e (ver + 1), !hd) := by
  rw [insertNode]
  rw [dif_pos h1]

theorem insertNode_caseB {α : Type} [Inhabited α] (s : List (Fin 256)) (hd : Bool)
    (d : α) (p : pop_tp) (ch : List (Node α)) (e : Fin 256) (ver : Nat)
    (rest : List (Fin 256)) (v : α)
    (h1 : ¬(commonPrefixLen s rest = rest.length ∧ commonPrefixLen s rest = s.length))
    (h2 : commonPrefixLen s rest = rest.length) :
    insertNode (.mk s hd d p ch e ver) rest v
      = (.mk (s.take (commonPrefixLen s rest)) true v
          (pop_tp.zero.set_bit (s.getD (commonPrefixLen s rest) 0)).2
          (List.insertIdx (pop_tp.zero.set_bit (s.getD (commonPrefixLen s rest) 0)).1
            (.mk (s.drop (commonPrefixLen s rest + 1)) hd d p ch
              (s.getD (commonPrefixLen s rest) 0) 0) [])
          e (ver + 1), true) := by
  rw [insertNode]
  rw [dif_neg h1, dif_pos h2]

theorem insertNode_caseE {α : Type} [Inhabited α] (s : List (Fin 256)) (hd : Bool)
    (d : α) (p : pop_tp) (ch : List (Node α)) (e : Fin 256) (ver : Nat)
    (rest : List (Fin 256)) (v : α) (child : Node α)
    (h1 : ¬(commonPrefixLen s rest = rest.length ∧ commonPrefixLen s rest = s.length))
    (h2 : ¬commonPrefixLen s rest = rest.length)
    (h3 : commonPrefixLen s rest = s.length)
    (hlc : lookupChild p ch (rest.getD (commonPrefixLen s rest) 0) = some child) :
    insertNode (.mk s hd d p ch e ver) rest v
      = (.mk s hd d p
          (ch.set ((p.find_pop (rest.getD (commonPrefixLen s rest) 0)).getD 0)
            (insertNode child (rest.drop (commonPrefixLen s rest + 1)) v).1) e ver,
         (insertNode child (rest.drop (commonPrefixLen s rest + 1)) v).2) := by
  rw [insertNode]
  rw [dif_neg h1, dif_neg h2, dif_pos h3]
  simp only [hlc]

theorem insertNode_caseC {α : Type} [Inhabited α] (s : List (Fin 256)) (hd : Bool)
    (d : α) (p : pop_tp) (ch : List (Node α)) (e : Fin 256) (ver : Nat)
    (rest : List (Fin 256)) (v : α)
    (h1 : ¬(commonPrefixLen s rest = rest.length ∧ commonPrefixLen s rest = s.length))
    (h2 : ¬commonPrefixLen s rest = rest.length)
    (h3 : commonPrefixLen s rest = s.length)
    (hlc : lookupChild p ch (rest.getD (commonPrefixLen s rest) 0) = none) :
    insertNode (.mk s hd d p ch e ver) rest v
      = (.mk s hd d (p.set_bit (rest.getD (commonPrefixLen s rest) 0)).2
          (List.insertIdx (p.set_bit (rest.getD (commonPrefixLen s rest) 0)).1
            (.mk (rest.drop (commonPrefixLen s rest + 1)) true v pop_tp.zero []
              (rest.getD (commonPrefixLen s rest) 0) 0) ch)
          e (ver + 1), true) := by
  rw [insertNode]
  rw [dif_neg h1, dif_neg h2, dif_pos h3]
  simp only [hlc]

theorem insertNode_caseD {α : Type} [Inhabited α] (s : List (Fin 256)) (hd : Bool)
    (d : α) (p : pop_tp) (ch : List (Node α)) (e : Fin 256) (ver : Nat)
    (rest : List (Fin 256)) (v : α)
    (h1 : ¬(commonPrefixLen s rest = rest.length ∧ commonPrefixLen s rest = s.length))
    (h2 : ¬commonPrefixLen s rest = rest.length)
    (h3 : ¬commonPrefixLen s rest = s.length) :
    insertNode (.mk s hd d p ch e ver) rest v
      = (.mk (s.take (commonPrefixLen s rest)) false default
          ((pop_tp.zero.set_bit (s.getD (commonPrefixLen s rest) 0)).2.set_bit
            (rest.getD (commonPrefixLen s rest) 0)).2
          (List.insertIdx
            ((pop_tp.zero.set_bit (s.getD (commonPrefixLen s rest) 0)).2.set_bit
              (rest.getD (commonPrefixLen s rest) 0)).1
            (.mk (rest.drop (commonPrefixLen s rest + 1)) true v pop_tp.zero []
              (rest.getD (commonPrefixLen s rest) 0) 0)
            (List.insertIdx
              (pop_tp.zero.set_bit (s.getD (commonPrefixLen s rest) 0)).1
              (.mk (s.drop (commonPrefixLen s rest + 1)) hd d p ch
                (s.getD (commonPrefixLen s rest) 0) 0) []))
          e (ver + 1), true) := by
  rw [insertNode]
  rw [dif_neg h1, dif_neg h2, dif_neg h3]

theorem eraseNode_not_match {α : Type} [Inhabited α] (s : List (Fin 256))
    (hd : Bool) (d : α) (p : pop_tp) (ch : List (Node α)) (e : Fin 256)
    (ver : Nat) {k : List (Fin 256)} (h : matchesSkip s k = false) :
    eraseNode (.mk s hd d p ch e ver) k = none := by
  rw [eraseNode]
  simp [h]

theorem eraseNode_self {α : Type} [Inhabited α] (s : List (Fin 256)) (hd : Bool)
    (d : α) (p : pop_tp) (ch : List (Node α)) (e : Fin 256) (ver : Nat) :
    eraseNode (.mk s hd d p ch e ver) s =
      if hd then some (.mk s false default p ch e (ver + 1)) else none := by
  rw [eraseNode]
  rw [if_pos (matchesSkip_self s)]
  split
  · rfl
  · rename_i c rest' hm
    rw [List.drop_length] at hm
    cases hm

theorem eraseNode_cons_some {α : Type} [Inhabited α] (s : List (Fin 256))
    (hd : Bool) (d : α) (p : pop_tp) (ch : List (Node α)) (e : Fin 256)
    (ver : Nat) (c : Fin 256) (r : List (Fin 256)) {child : Node α}
    (hc : lookupChild p ch c = some child) :
    eraseNode (.mk s hd d p ch e ver) (s ++ c :: r) =
      (eraseNode child r).map (fun child' =>
        .mk s hd d p (ch.set ((p.find_pop c).getD 0) child') e ver) := by
  rw [eraseNode]
  rw [if_pos (matchesSkip_append_self s (c :: r))]
  split
  · rename_i hm
    rw [List.drop_left] at hm
    cases hm
  · rename_i c1 rest' hm
    rw [List.drop_left] at hm
    cases hm
    rw [hc]

theorem eraseNode_cons_none {α : Type} [Inhabited α] (s : List (Fin 256))
    (hd : Bool) (d : α) (p : pop_tp) (ch : List (Node α)) (e : Fin 256)
    (ver : Nat) (c : Fin 256) (r : List (Fin 256))
    (hc : lookupChild p ch c = none) :
    eraseNode (.mk s hd d p ch e ver) (s ++ c :: r) = none := by
  rw [eraseNode]
  rw [if_pos (matchesSkip_append_self s (c :: r))]
  split
  · rename_i hm
    rw [List.drop_left] at hm
    cases hm
  · rename_i c1 rest' hm
    rw [List.drop_left] at hm
    cases hm
    rw [hc]

theorem matchesSkip_prefix_left :
    ∀ (a b k : List (Fin 256)), matchesSkip (a ++ b) k = true →
      matchesSkip a k = true := by
  intro a
  induction a with
  | nil => intro b k _; rfl
  | cons x xs ih =>
      intro b k h
      cases k with
      | nil => simp [matchesSkip] at h
      | cons y ys =>
          simp only [List.cons_append, matchesSkip, Bool.and_eq_true] at h ⊢
          exact ⟨h.1, ih b ys h.2⟩

theorem matchesSkip_length_le :
    ∀ (s k : List (Fin 256)), matchesSkip s k = true → s.length ≤ k.length := by
  intro s
  induction s with
  | nil => intro k _; simp
  | cons x xs ih =>
      intro k h
      cases k with
      | nil => simp [matchesSkip] at h
      | cons y ys =>
          simp only [matchesSkip, Bool.and_eq_true] at h
          simpa using ih ys h.2

theorem drop_eq_getD_cons :
    ∀ (l : List (Fin 256)) (i : Nat), i < l.length →
      l.drop i = l.getD i 0 :: l.drop (i + 1) := by
  intro l
  induction l with
  | nil => intro i hi; simp at hi
  | cons x xs ih =>
      intro i hi
      cases i with
      | zero => simp
      | succ i =>
          simp only [List.drop_succ_cons, List.getD_cons_succ]
          exact ih i (by simpa using hi)

set_option maxHeartbeats 1000000 in
theorem insertNode_spec {α : Type} [Inhabited α] (n : Node α)
    (rest : List (Fin 256)) (v : α) :
    n.WF →
      (insertNode n rest v).1.WF ∧
      (insertNode n rest v).1.parentEdge = n.parentEdge ∧
      ((insertNode n rest v).2 = true ↔ subVal n rest = none) ∧
      subVal (insertNode n rest v).1 rest = some ((subVal n rest).getD v) ∧
      (∀ k, k ≠ rest → subVal (insertNode n rest v).1 k = subVal n k) := by
  induction n, rest, v using insertNode.induct with
  | case1 rest v s hd d p ch e ver common h1 =>
      intro hwf
      cases hwf with
      | mk _ _ _ _ _ _ _ hpw hcorr hch =>
      rw [insertNode_caseA s hd d p ch e ver rest v h1]
      have hse : s = rest := eq_of_commonPrefixLen_full h1.2 h1.1
      subst hse
      refine ⟨Node.WF.mk _ _ _ _ _ _ _ hpw hcorr hch, rfl, ?_, ?_, ?_⟩
      · rw [subVal_self]
        cases hd <;> simp
      · rw [subVal_self, subVal_self]
        cases hd <;> simp
      · intro k hk
        rcases key_cases s k with h | h | ⟨c, r, h⟩
        · rw [subVal_not_match _ _ _ _ _ _ _ h, subVal_not_match _ _ _ _ _ _ _ h]
        · exact absurd h hk
        · subst h
          cases hc : lookupChild p ch c with
          | some child =>
              rw [subVal_cons_some _ _ _ _ _ _ _ _ _ hc,
                subVal_cons_some _ _ _ _ _ _ _ _ _ hc]
          | none =>
              rw [subVal_cons_none _ _ _ _ _ _ _ _ _ hc,
                subVal_cons_none _ _ _ _ _ _ _ _ _ hc]
  | case2 rest v s hd d p ch e ver common h1 h2 =>
      intro hwf
      cases hwf with
      | mk _ _ _ _ _ _ _ hpw hcorr hch =>
      have h1' : ¬(commonPrefixLen s rest = rest.length ∧
          commonPrefixLen s rest = s.length) := h1
      have h2' : commonPrefixLen s rest = rest.length := h2
      rw [insertNode_caseB s hd d p ch e ver rest v h1' h2']
      have hlel := commonPrefixLen_le_left s rest
      have hlt : commonPrefixLen s rest < s.length := by
        rcases Nat.lt_or_ge (commonPrefixLen s rest) s.length with h | h
        · exact h
        · exact absurd ⟨h2', Nat.le_antisymm hlel h⟩ h1'
      have hs0 : s.take (commonPrefixLen s rest) = rest := by
        have ht := take_commonPrefixLen s rest
        rw [ht, h2', List.take_length]
      have hsdec : s.take (commonPrefixLen s rest) ++
          s.getD (commonPrefixLen s rest) 0 ::
            s.drop (commonPrefixLen s rest + 1) = s :=
        take_getD_drop s _ hlt
      have hseq : rest ++ s.getD (commonPrefixLen s rest) 0 ::
          s.drop (commonPrefixLen s rest + 1) = s := by
        rw [hs0] at hsdec
        exact hsdec
      have hr1 : (pop_tp.zero.set_bit (s.getD (commonPrefixLen s rest) 0)).1 = 0 := by
        rw [pop_tp.set_bit_fst pop_tp.wf_zero, pop_tp.rank_zero]
      rw [hr1, List.insertIdx_zero, hs0]
      have hcorrz : (([] : List (Node α)).map (fun x => (x.parentEdge : Nat)))
          = pop_tp.zero.bitsList := by
        rw [pop_tp.bitsList_zero]
        rfl
      have hcorr1 := @corr_insert α pop_tp.zero pop_tp.wf_zero [] hcorrz
        (s.getD (commonPrefixLen s rest) 0)
        (pop_tp.has_zero (s.getD (commonPrefixLen s rest) 0))
        (Node.mk (s.drop (commonPrefixLen s rest + 1)) hd d p ch
          (s.getD (commonPrefixLen s rest) 0) 0) rfl
      rw [hr1, List.insertIdx_zero] at hcorr1
      refine ⟨?_, rfl, ?_, ?_, ?_⟩
      · refine Node.WF.mk _ _ _ _ _ _ _
          (pop_tp.wf_set_bit pop_tp.wf_zero _) hcorr1 ?_
        intro x hx
        rcases List.mem_singleton.mp hx with rfl
        exact Node.WF.mk _ _ _ _ _ _ _ hpw hcorr hch
      · rw [subVal_not_match _ _ _ _ _ _ _ (not_matchesSkip_of_lt hlt)]
        simp
      · rw [subVal_self,
          subVal_not_match _ _ _ _ _ _ _ (not_matchesSkip_of_lt hlt)]
        simp
      · intro k hk
        rcases key_cases rest k with h | h | ⟨c, r, h⟩
        · rw [subVal_not_match _ _ _ _ _ _ _ h]
          have hns : matchesSkip s k = false := by
            by_cases hm : matchesSkip s k = true
            · exfalso
              rw [← hseq] at hm
              have hpre := matchesSkip_prefix_left _ _ _ hm
              rw [hpre] at h
              cases h
            · exact Bool.not_eq_true _ ▸ hm
          rw [subVal_not_match _ _ _ _ _ _ _ hns]
        · exact absurd h hk
        · subst h
          have hlook := @lookupChild_insert α pop_tp.zero pop_tp.wf_zero []
            hcorrz (s.getD (commonPrefixLen s rest) 0)
            (pop_tp.has_zero (s.getD (commonPrefixLen s rest) 0))
            (Node.mk (s.drop (commonPrefixLen s rest + 1)) hd d p ch
              (s.getD (commonPrefixLen s rest) 0) 0) c
          rw [hr1, List.insertIdx_zero] at hlook
          by_cases hc : c = s.getD (commonPrefixLen s rest) 0
          · rw [if_pos hc] at hlook
            rw [subVal_cons_some _ _ _ _ _ _ _ _ _ hlook]
            have hshift := subVal_shift rest (s.getD (commonPrefixLen s rest) 0)
              (s.drop (commonPrefixLen s rest + 1)) hd d p ch e
              (s.getD (commonPrefixLen s rest) 0) ver 0 r
            rw [hseq] at hshift
            rw [hc, hshift]
          · rw [if_neg hc,
              lookupChild_eq_none pop_tp.zero [] (pop_tp.has_zero c)] at hlook
            rw [subVal_cons_none _ _ _ _ _ _ _ _ _ hlook]
            have hne2 : s.getD (commonPrefixLen s rest) 0 ≠ c :=
              fun habs => hc habs.symm
            have hns : matchesSkip s (rest ++ c :: r) = false := by
              conv_lhs => rw [← hseq]
              rw [matchesSkip_append_cancel]
              simp only [matchesSkip, Bool.and_eq_false_imp, beq_iff_eq]
              intro habs
              exact absurd habs hne2
            rw [subVal_not_match _ _ _ _ _ _ _ hns]
  | case3 rest v s hd d p ch e ver common h1 h2 h3 c child hlc ih =>
      intro hwf
      cases hwf with
      | mk _ _ _ _ _ _ _ hpw hcorr hch =>
      have h1' : ¬(commonPrefixLen s rest = rest.length ∧
          commonPrefixLen s rest = s.length) := h1
      have h2' : ¬commonPrefixLen s rest = rest.length := h2
      have h3' : commonPrefixLen s rest = s.length := h3
      have hlc' : lookupChild p ch (rest.getD (commonPrefixLen s rest) 0)
          = some child := hlc
      have ih' : child.WF →
          (insertNode child (rest.drop (commonPrefixLen s rest + 1)) v).1.WF ∧
          (insertNode child (rest.drop (commonPrefixLen s rest + 1)) v).1.parentEdge
            = child.parentEdge ∧
          ((insertNode child (rest.drop (commonPrefixLen s rest + 1)) v).2 = true ↔
            subVal child (rest.drop (commonPrefixLen s rest + 1)) = none) ∧
          subVal (insertNode child (rest.drop (commonPrefixLen s rest + 1)) v).1
            (rest.drop (commonPrefixLen s rest + 1)) =
            some ((subVal child (rest.drop (commonPrefixLen s rest + 1))).getD v) ∧
          (∀ k, k ≠ rest.drop (commonPrefixLen s rest + 1) →
            subVal (insertNode child (rest.drop (commonPrefixLen s rest + 1)) v).1 k
              = subVal child k) := ih
      rw [insertNode_caseE s hd d p ch e ver rest v child h1' h2' h3' hlc']
      have hltr : commonPrefixLen s rest < rest.length :=
        Nat.lt_of_le_of_ne (commonPrefixLen_le_right s rest) h2'
      have hsfull : s = rest.take (commonPrefixLen s rest) := by
        have ht := take_commonPrefixLen s rest
        rw [h3'] at ht
        rw [List.take_length] at ht
        rw [h3']
        exact ht
      have hrseq : s ++ rest.getD (commonPrefixLen s rest) 0 ::
          rest.drop (commonPrefixLen s rest + 1) = rest := by
        have hrdec := take_getD_drop rest _ hltr
        rw [← hsfull] at hrdec
        exact hrdec
      have hhasc : p.has (rest.getD (commonPrefixLen s rest) 0) = true := by
        by_cases hh : p.has (rest.getD (commonPrefixLen s rest) 0) = true
        · exact hh
        · rw [Bool.not_eq_true] at hh
          rw [lookupChild_eq_none p ch hh] at hlc'
          cases hlc'
      have hidx : (p.find_pop (rest.getD (commonPrefixLen s rest) 0)).getD 0
          = p.rank (rest.getD (commonPrefixLen s rest) 0).val := by
        rw [pop_tp.find_pop_eq hpw, hhasc]
        rfl
      rw [hidx]
      generalize hgc : rest.getD (commonPrefixLen s rest) 0 = c0
      rw [hgc] at hlc' hhasc hrseq
      generalize hgr : rest.drop (commonPrefixLen s rest + 1) = r2
      rw [hgr] at hrseq ih'
      obtain ⟨child2, hlk2, hmem2, hedge2, hget2⟩ := lookupChild_some hpw hcorr hhasc
      have hc2 : child2 = child := by
        rw [hlk2] at hlc'
        exact Option.some.inj hlc'
      subst hc2
      have hwfchild := hch child2 hmem2
      obtain ⟨ihWF, ihEdge, ihNew, ihSelf, ihOther⟩ := ih' hwfchild
      refine ⟨?_, rfl, ?_, ?_, ?_⟩
      · refine Node.WF.mk _ _ _ _ _ _ _ hpw ?_ ?_
        · apply corr_set hpw hcorr hhasc
          rw [ihEdge, hedge2]
        · intro x hx
          rcases List.mem_or_eq_of_mem_set hx with hx | rfl
          · exact hch x hx
          · exact ihWF
      · conv_rhs => rw [← hrseq]
        rw [subVal_cons_some _ _ _ _ _ _ _ _ _ hlc']
        exact ihNew
      · conv_lhs => rw [← hrseq]
        conv_rhs => rw [← hrseq]
        have hlset := lookupChild_set hpw hcorr hhasc
          (insertNode child2 r2 v).1 c0
        rw [if_pos rfl] at hlset
        rw [subVal_cons_some _ _ _ _ _ _ _ _ _ hlset,
          subVal_cons_some _ _ _ _ _ _ _ _ _ hlc']
        exact ihSelf
      · intro k hk
        rcases key_cases s k with h | h | ⟨c', r', h⟩
        · rw [subVal_not_match _ _ _ _ _ _ _ h, subVal_not_match _ _ _ _ _ _ _ h]
        · subst h
          rw [subVal_self, subVal_self]
        · subst h
          have hlset := lookupChild_set hpw hcorr hhasc
            (insertNode child2 r2 v).1 c'
          by_cases hcc : c' = c0
          · subst hcc
            rw [if_pos rfl] at hlset
            rw [subVal_cons_some _ _ _ _ _ _ _ _ _ hlset,
              subVal_cons_some _ _ _ _ _ _ _ _ _ hlc']
            apply ihOther
            intro habs
            apply hk
            rw [habs, hrseq]
          · rw [if_neg hcc] at hlset
            cases hlcc : lookupChild p ch c' with
            | some child3 =>
                rw [hlcc] at hlset
                rw [subVal_cons_some _ _ _ _ _ _ _ _ _ hlset,
                  subVal_cons_some _ _ _ _ _ _ _ _ _ hlcc]
            | none =>
                rw [hlcc] at hlset
                rw [subVal_cons_none _ _ _ _ _ _ _ _ _ hlset,
                  subVal_cons_none _ _ _ _ _ _ _ _ _ hlcc]
  | case4 rest v s hd d p ch e ver common h1 h2 h3 c hlc =>
      intro hwf
      cases hwf with
      | mk _ _ _ _ _ _ _ hpw hcorr hch =>
      have h1' : ¬(commonPrefixLen s rest = rest.length ∧
          commonPrefixLen s rest = s.length) := h1
      have h2' : ¬commonPrefixLen s rest = rest.length := h2
      have h3' : commonPrefixLen s rest = s.length := h3
      have hlc' : lookupChild p ch (rest.getD (commonPrefixLen s rest) 0)
          = none := hlc
      rw [insertNode_caseC s hd d p ch e ver rest v h1' h2' h3' hlc']
      have hltr : commonPrefixLen s rest < rest.length :=
        Nat.lt_of_le_of_ne (commonPrefixLen_le_right s rest) h2'
      have hsfull : s = rest.take (commonPrefixLen s rest) := by
        have ht := take_commonPrefixLen s rest
        rw [h3'] at ht
        rw [List.take_length] at ht
        rw [h3']
        exact ht
      have hrseq : s ++ rest.getD (commonPrefixLen s rest) 0 ::
          rest.drop (commonPrefixLen s rest + 1) = rest := by
        have hrdec := take_getD_drop rest _ hltr
        rw [← hsfull] at hrdec
        exact hrdec
      have hnotc : p.has (rest.getD (commonPrefixLen s rest) 0) = false := by
        by_cases hh : p.has (rest.getD (commonPrefixLen s rest) 0) = true
        · obtain ⟨child2, hlk2, _, _, _⟩ := lookupChild_some hpw hcorr hh
          rw [hlk2] at hlc'
          cases hlc'
        · rw [Bool.not_eq_true] at hh
          exact hh
      generalize hgc : rest.getD (commonPrefixLen s rest) 0 = c0
      rw [hgc] at hlc' hnotc hrseq
      generalize hgr : rest.drop (commonPrefixLen s rest + 1) = r2
      rw [hgr] at hrseq
      have hkle : (p.set_bit c0).1 ≤ ch.length := by
        rw [pop_tp.set_bit_fst hpw, corr_length hcorr]
        exact pop_tp.rank_le_length p c0.val
      refine ⟨?_, rfl, ?_, ?_, ?_⟩
      · refine Node.WF.mk _ _ _ _ _ _ _ (pop_tp.wf_set_bit hpw _) ?_ ?_
        · exact @corr_insert α p hpw ch hcorr c0 hnotc
            (.mk r2 true v pop_tp.zero [] c0 0) rfl
        · intro x hx
          rcases (List.mem_insertIdx hkle).mp hx with rfl | hx
          · refine Node.WF.mk _ _ _ _ _ _ _ pop_tp.wf_zero ?_ ?_
            · rw [pop_tp.bitsList_zero]
              rfl
            · intro y hy
              cases hy
          · exact hch x hx
      · conv_rhs => rw [← hrseq]
        rw [subVal_cons_none _ _ _ _ _ _ _ _ _ hlc']
        simp
      · conv_lhs => rw [← hrseq]
        conv_rhs => rw [← hrseq]
        have hlins := @lookupChild_insert α p hpw ch hcorr c0 hnotc
          (.mk r2 true v pop_tp.zero [] c0 0) c0
        rw [if_pos rfl] at hlins
        rw [subVal_cons_some _ _ _ _ _ _ _ _ _ hlins,
          subVal_cons_none _ _ _ _ _ _ _ _ _ hlc']
        rw [subVal_leaf]
        simp
      · intro k hk
        rcases key_cases s k with h | h | ⟨c', r', h⟩
        · rw [subVal_not_match _ _ _ _ _ _ _ h, subVal_not_match _ _ _ _ _ _ _ h]
        · subst h
          rw [subVal_self, subVal_self]
        · subst h
          have hlins := @lookupChild_insert α p hpw ch hcorr c0 hnotc
            (.mk r2 true v pop_tp.zero [] c0 0) c'
          by_cases hcc : c' = c0
          · subst hcc
            rw [if_pos rfl] at hlins
            rw [subVal_cons_some _ _ _ _ _ _ _ _ _ hlins,
              subVal_cons_none _ _ _ _ _ _ _ _ _ hlc']
            rw [subVal_leaf, if_neg]
            intro habs
            apply hk
            rw [habs, hrseq]
          · rw [if_neg hcc] at hlins
            cases hlcc : lookupChild p ch c' with
            | some child3 =>
                rw [hlcc] at hlins
                rw [subVal_cons_some _ _ _ _ _ _ _ _ _ hlins,
                  subVal_cons_some _ _ _ _ _ _ _ _ _ hlcc]
            | none =>
                rw [hlcc] at hlins
                rw [subVal_cons_none _ _ _ _ _ _ _ _ _ hlins,
                  subVal_cons_none _ _ _ _ _ _ _ _ _ hlcc]
  | case5 rest v s hd d p ch e ver common h1 h2 h3 =>
      intro hwf
      cases hwf with
      | mk _ _ _ _ _ _ _ hpw hcorr hch =>
      have h1' : ¬(commonPrefixLen s rest = rest.length ∧
          commonPrefixLen s rest = s.length) := h1
      have h2' : ¬commonPrefixLen s rest = rest.length := h2
      have h3' : ¬commonPrefixLen s rest = s.length := h3
      rw [insertNode_caseD s hd d p ch e ver rest v h1' h2' h3']
      have hlts : commonPrefixLen s rest < s.length :=
        Nat.lt_of_le_of_ne (commonPrefixLen_le_left s rest) h3'
      have hltr : commonPrefixLen s rest < rest.length :=
        Nat.lt_of_le_of_ne (commonPrefixLen_le_right s rest) h2'
      have hne0 := commonPrefixLen_ne s rest hlts hltr
      generalize hgs0 : s.take (commonPrefixLen s rest) = s0
      generalize hge0 : s.getD (commonPrefixLen s rest) 0 = e0
      generalize hgs2 : s.drop (commonPrefixLen s rest + 1) = s2
      generalize hgen : rest.getD (commonPrefixLen s rest) 0 = e1
      generalize hgr2 : rest.drop (commonPrefixLen s rest + 1) = r2
      rw [hge0, hgen] at hne0
      have hsdec : s0 ++ e0 :: s2 = s := by
        have hds := take_getD_drop s _ hlts
        rw [hgs0, hge0, hgs2] at hds
        exact hds
      have hrseq : s0 ++ e1 :: r2 = rest := by
        have hdr := take_getD_drop rest _ hltr
        have htk : rest.take (commonPrefixLen s rest) = s0 := by
          rw [← hgs0]
          exact (take_commonPrefixLen s rest).symm
        rw [htk, hgen, hgr2] at hdr
        exact hdr
      have hr1 : (pop_tp.zero.set_bit e0).1 = 0 := by
        rw [pop_tp.set_bit_fst pop_tp.wf_zero, pop_tp.rank_zero]
      rw [hr1, List.insertIdx_zero]
      have hcorrz : (([] : List (Node α)).map (fun x => (x.parentEdge : Nat)))
          = pop_tp.zero.bitsList := by
        rw [pop_tp.bitsList_zero]
        rfl
      have hP1wf := pop_tp.wf_set_bit pop_tp.wf_zero e0
      have hcorr1 := @corr_insert α pop_tp.zero pop_tp.wf_zero [] hcorrz e0
        (pop_tp.has_zero e0) (Node.mk s2 hd d p ch e0 0) rfl
      rw [hr1, List.insertIdx_zero] at hcorr1
      have hnot1 : (pop_tp.zero.set_bit e0).2.has e1 = false := by
        rw [pop_tp.has_set_bit]
        simp [pop_tp.has_zero, Ne.symm hne0]
      have hcorr2 := @corr_insert α (pop_tp.zero.set_bit e0).2 hP1wf
        [Node.mk s2 hd d p ch e0 0] hcorr1 e1 hnot1
        (Node.mk r2 true v pop_tp.zero [] e1 0) rfl
      have hkle2 : ((pop_tp.zero.set_bit e0).2.set_bit e1).1 ≤
          ([Node.mk s2 hd d p ch e0 0] : List (Node α)).length := by
        rw [pop_tp.set_bit_fst hP1wf, corr_length hcorr1]
        exact pop_tp.rank_le_length _ e1.val
      refine ⟨?_, rfl, ?_, ?_, ?_⟩
      · refine Node.WF.mk _ _ _ _ _ _ _ (pop_tp.wf_set_bit hP1wf _) hcorr2 ?_
        intro x hx
        rcases (List.mem_insertIdx hkle2).mp hx with rfl | hx
        · refine Node.WF.mk _ _ _ _ _ _ _ pop_tp.wf_zero ?_ ?_
          · rw [pop_tp.bitsList_zero]
            rfl
          · intro y hy
            cases hy
        · rcases List.mem_singleton.mp hx with rfl
          exact Node.WF.mk _ _ _ _ _ _ _ hpw hcorr hch
      · rw [subVal_not_match _ _ _ _ _ _ _ (not_matchesSkip_of_lt hlts)]
        simp
      · conv_lhs => rw [← hrseq]
        have hlins := @lookupChild_insert α (pop_tp.zero.set_bit e0).2 hP1wf
          [Node.mk s2 hd d p ch e0 0] hcorr1 e1 hnot1
          (Node.mk r2 true v pop_tp.zero [] e1 0) e1
        rw [if_pos rfl] at hlins
        rw [subVal_cons_some _ _ _ _ _ _ _ _ _ hlins, subVal_leaf]
        rw [subVal_not_match _ _ _ _ _ _ _ (not_matchesSkip_of_lt hlts)]
        simp
      · intro k hk
        rcases key_cases s0 k with h | h | ⟨c', r', h⟩
        · rw [subVal_not_match _ _ _ _ _ _ _ h]
          have hns : matchesSkip s k = false := by
            by_cases hm : matchesSkip s k = true
            · exfalso
              rw [← hsdec] at hm
              have hpre := matchesSkip_prefix_left _ _ _ hm
              rw [hpre] at h
              cases h
            · exact Bool.not_eq_true _ ▸ hm
          rw [subVal_not_match _ _ _ _ _ _ _ hns]
        · subst h
          rw [subVal_self]
          have hlen0 : k.length = commonPrefixLen s rest := by
            rw [← hgs0, List.length_take]
            omega
          have hns : matchesSkip s k = false := by
            by_cases hm : matchesSkip s k = true
            · have hle := matchesSkip_length_le _ _ hm
              rw [hlen0] at hle
              omega
            · exact Bool.not_eq_true _ ▸ hm
          rw [subVal_not_match _ _ _ _ _ _ _ hns]
          simp
        · subst h
          have hlins := @lookupChild_insert α (pop_tp.zero.set_bit e0).2 hP1wf
            [Node.mk s2 hd d p ch e0 0] hcorr1 e1 hnot1
            (Node.mk r2 true v pop_tp.zero [] e1 0) c'
          by_cases hc1 : c' = e1
          · rw [if_pos hc1] at hlins
            rw [subVal_cons_some _ _ _ _ _ _ _ _ _ hlins, subVal_leaf, if_neg]
            · have hns : matchesSkip s (s0 ++ c' :: r') = false := by
                conv_lhs => rw [← hsdec]
                rw [matchesSkip_append_cancel]
                simp only [matchesSkip, Bool.and_eq_false_imp, beq_iff_eq]
                intro habs
                rw [habs, hc1] at hne0
                exact (hne0 rfl).elim
              rw [subVal_not_match _ _ _ _ _ _ _ hns]
            · intro habs
              apply hk
              rw [habs, hc1, hrseq]
          · rw [if_neg hc1] at hlins
            have hlins0 := @lookupChild_insert α pop_tp.zero pop_tp.wf_zero []
              hcorrz e0 (pop_tp.has_zero e0) (Node.mk s2 hd d p ch e0 0) c'
            rw [hr1, List.insertIdx_zero] at hlins0
            by_cases hc0 : c' = e0
            · rw [if_pos hc0] at hlins0
              rw [hlins0] at hlins
              rw [subVal_cons_some _ _ _ _ _ _ _ _ _ hlins]
              have hshift := subVal_shift s0 e0 s2 hd d p ch e e0 ver 0 r'
              rw [hsdec] at hshift
              rw [hc0, hshift]
            · rw [if_neg hc0, lookupChild_eq_none pop_tp.zero []
                (pop_tp.has_zero c')] at hlins0
              rw [hlins0] at hlins
              rw [subVal_cons_none _ _ _ _ _ _ _ _ _ hlins]
              have hns : matchesSkip s (s0 ++ c' :: r') = false := by
                conv_lhs => rw [← hsdec]
                rw [matchesSkip_append_cancel]
                simp only [matchesSkip, Bool.and_eq_false_imp, beq_iff_eq]
                intro habs
                exact absurd habs.symm hc0
              rw [subVal_not_match _ _ _ _ _ _ _ hns]

set_option maxHeartbeats 1000000 in
theorem eraseNode_spec {α : Type} [Inhabited α] (n : Node α)
    (rest : List (Fin 256)) :
    n.WF →
      (eraseNode n rest = none ↔ subVal n rest = none) ∧
      ∀ n', eraseNode n rest = some n' →
        n'.WF ∧ n'.parentEdge = n.parentEdge ∧
        subVal n' rest = none ∧
        ∀ k, k ≠ rest → subVal n' k = subVal n k := by
  induction n, rest using eraseNode.induct with
  | case1 rest s d p ch e ver hmatch hdrop =>
      intro hwf
      cases hwf with
      | mk _ _ _ _ _ _ _ hpw hcorr hch =>
      have hse : rest = s := by
        have hk := matchesSkip_eq_append hmatch
        rw [hdrop, List.append_nil] at hk
        exact hk
      subst hse
      rw [eraseNode_self, if_pos rfl]
      refine ⟨?_, ?_⟩
      · constructor
        · intro habs
          cases habs
        · intro habs
          rw [subVal_self, if_pos rfl] at habs
          cases habs
      · intro n' hn'
        cases hn'
        refine ⟨Node.WF.mk _ _ _ _ _ _ _ hpw hcorr hch, rfl, ?_, ?_⟩
        · rw [subVal_self]
          simp
        · intro k hk
          rcases key_cases rest k with h | h | ⟨c, r, h⟩
          · rw [subVal_not_match _ _ _ _ _ _ _ h,
              subVal_not_match _ _ _ _ _ _ _ h]
          · exact absurd h hk
          · subst h
            cases hc : lookupChild p ch c with
            | some child =>
                rw [subVal_cons_some _ _ _ _ _ _ _ c r hc,
                  subVal_cons_some _ _ _ _ _ _ _ c r hc]
            | none =>
                rw [subVal_cons_none _ _ _ _ _ _ _ c r hc,
                  subVal_cons_none _ _ _ _ _ _ _ c r hc]
  | case2 rest s hd d p ch e ver hmatch hdrop hnot =>
      intro hwf
      have hse : rest = s := by
        have hk := matchesSkip_eq_append hmatch
        rw [hdrop, List.append_nil] at hk
        exact hk
      subst hse
      have hdf : hd = false := by
        cases hd with
        | true => exact absurd rfl hnot
        | false => rfl
      subst hdf
      rw [eraseNode_self, if_neg (by simp)]
      refine ⟨?_, ?_⟩
      · constructor
        · intro _
          rw [subVal_self]
          simp
        · intro _
          rfl
      · intro n' hn'
        cases hn'
  | case3 rest s hd d p ch e ver hmatch c rest' hdrop child hlc ih =>
      intro hwf
      cases hwf with
      | mk _ _ _ _ _ _ _ hpw hcorr hch =>
      have hrseq : rest = s ++ c :: rest' := by
        have hk := matchesSkip_eq_append hmatch
        rw [hdrop] at hk
        exact hk
      subst hrseq
      have hhas : p.has c = true := by
        cases hph : p.has c with
        | true => rfl
        | false =>
            rw [lookupChild_eq_none p ch hph] at hlc
            cases hlc
      obtain ⟨child, hl0, hmem0, hpe0, hget0⟩ := lookupChild_some hpw hcorr hhas
      rw [hlc] at hl0
      cases hl0
      have hchildWF : child.WF := hch child hmem0
      have hfp : (p.find_pop c).getD 0 = p.rank c.val := by
        rw [pop_tp.find_pop_eq hpw, if_pos hhas]
        rfl
      obtain ⟨IH1, IH2⟩ := ih hchildWF
      rw [eraseNode_cons_some s hd d p ch e ver c rest' hlc]
      refine ⟨?_, ?_⟩
      · constructor
        · intro habs
          rw [Option.map_eq_none'] at habs
          rw [subVal_cons_some _ _ _ _ _ _ _ c rest' hlc]
          exact IH1.mp habs
        · intro habs
          rw [subVal_cons_some _ _ _ _ _ _ _ c rest' hlc] at habs
          rw [Option.map_eq_none']
          exact IH1.mpr habs
      · intro n' hn'
        cases hec : eraseNode child rest' with
        | none =>
            rw [hec] at hn'
            cases hn'
        | some child' =>
            rw [hec] at hn'
            simp only [Option.map_some'] at hn'
            cases hn'
            obtain ⟨hWFc', hpec', hnone', hother'⟩ := IH2 child' hec
            have hpec : child'.parentEdge = c := by rw [hpec', hpe0]
            rw [hfp]
            refine ⟨?_, rfl, ?_, ?_⟩
            · refine Node.WF.mk _ _ _ _ _ _ _ hpw
                (corr_set hpw hcorr hhas hpec) ?_
              intro x hx
              rcases List.mem_or_eq_of_mem_set hx with hx | rfl
              · exact hch x hx
              · exact hWFc'
            · have hls := lookupChild_set hpw hcorr hhas child' c
              rw [if_pos rfl] at hls
              rw [subVal_cons_some _ _ _ _ _ _ _ c rest' hls]
              exact hnone'
            · intro k hk
              rcases key_cases s k with h | h | ⟨c1, r1, h⟩
              · rw [subVal_not_match _ _ _ _ _ _ _ h,
                  subVal_not_match _ _ _ _ _ _ _ h]
              · subst h
                rw [subVal_self, subVal_self]
              · subst h
                have hls := lookupChild_set hpw hcorr hhas child' c1
                by_cases hc1 : c1 = c
                · subst hc1
                  rw [if_pos rfl] at hls
                  rw [subVal_cons_some _ _ _ _ _ _ _ c1 r1 hls,
                    subVal_cons_some _ _ _ _ _ _ _ c1 r1 hlc]
                  apply hother'
                  intro habs
                  apply hk
                  rw [habs]
                · rw [if_neg hc1] at hls
                  cases hidx : lookupChild p ch c1 with
                  | some ochild =>
                      rw [hidx] at hls
                      rw [subVal_cons_some _ _ _ _ _ _ _ c1 r1 hls,
                        subVal_cons_some _ _ _ _ _ _ _ c1 r1 hidx]
                  | none =>
                      rw [hidx] at hls
                      rw [subVal_cons_none _ _ _ _ _ _ _ c1 r1 hls,
                        subVal_cons_none _ _ _ _ _ _ _ c1 r1 hidx]
  | case4 rest s hd d p ch e ver hmatch c rest' hdrop hnone =>
      intro hwf
      have hrseq : rest = s ++ c :: rest' := by
        have hk := matchesSkip_eq_append hmatch
        rw [hdrop] at hk
        exact hk
      subst hrseq
      rw [eraseNode_cons_none s hd d p ch e ver c rest' hnone]
      refine ⟨?_, ?_⟩
      · constructor
        · intro _
          rw [subVal_cons_none _ _ _ _ _ _ _ c rest' hnone]
        · intro _
          rfl
      · intro n' hn'
        cases hn'
  | case5 rest s hd d p ch e ver hnm =>
      intro hwf
      have hns : matchesSkip s rest = false := by
        cases hm : matchesSkip s rest with
        | true => exact absurd hm hnm
        | false => rfl
      rw [eraseNode_not_match s hd d p ch e ver hns]
      refine ⟨?_, ?_⟩
      · constructor
        · intro _
          rw [subVal_not_match _ _ _ _ _ _ _ hns]
        · intro _
          rfl
      · intro n' hn'
        cases hn'

/-! ### Reference-model lemmas -/

theorem specLookup_filter_self {α : Type} (m : List (List (Fin 256) × α))
    (k : List (Fin 256)) :
    specLookup (m.filter (fun kv => kv.1 ≠ k)) k = none := by
  induction m with
  | nil => rfl
  | cons kv m' ih =>
      by_cases h : kv.1 = k
      · rw [List.filter_cons_of_neg (by simp [h])]
        exact ih
      · rw [List.filter_cons_of_pos (by simp [h])]
        rw [specLookup, if_neg (fun habs => h habs.symm)]
        exact ih

theorem specLookup_filter_ne {α : Type} (m : List (List (Fin 256) × α))
    {k k' : List (Fin 256)} (hne : k' ≠ k) :
    specLookup (m.filter (fun kv => kv.1 ≠ k)) k' = specLookup m k' := by
  induction m with
  | nil => rfl
  | cons kv m' ih =>
      by_cases h : kv.1 = k
      · rw [List.filter_cons_of_neg (by simp [h])]
        have hr : specLookup (kv :: m') k' = specLookup m' k' := by
          rw [specLookup, if_neg]
          intro habs
          rw [h] at habs
          exact hne habs
        rw [hr]
        exact ih
      · rw [List.filter_cons_of_pos (by simp [h])]
        by_cases hk : k' = kv.1
        · rw [specLookup, if_pos hk, specLookup, if_pos hk]
        · rw [specLookup, if_neg hk, specLookup, if_neg hk]
          exact ih

theorem specLookup_eq_none_iff {α : Type} (m : List (List (Fin 256) × α))
    (k : List (Fin 256)) :
    specLookup m k = none ↔ ∀ kv ∈ m, kv.1 ≠ k := by
  induction m with
  | nil => simp [specLookup]
  | cons kv m' ih =>
      rw [specLookup]
      by_cases h : k = kv.1
      · simp only [if_pos h]
        constructor
        · intro habs
          cases habs
        · intro habs
          exact absurd h.symm (habs kv (by simp))
      · simp only [if_neg h, ih]
        constructor
        · intro hall x hx
          rcases List.mem_cons.mp hx with rfl | hx
          · exact fun habs => h habs.symm
          · exact hall x hx
        · intro hall x hx
          exact hall x (List.mem_cons_of_mem _ hx)

theorem filter_length_of_lookup_some {α : Type}
    (m : List (List (Fin 256) × α)) (k : List (Fin 256)) :
    (m.map Prod.fst).Nodup → (specLookup m k).isSome →
      (m.filter (fun kv => kv.1 ≠ k)).length + 1 = m.length := by
  induction m with
  | nil =>
      intro _ hsome
      simp [specLookup] at hsome
  | cons kv m' ih =>
      intro hnd hsome
      rw [List.map_cons, List.nodup_cons] at hnd
      by_cases h : kv.1 = k
      · rw [List.filter_cons_of_neg (by simp [h])]
        have hnone : ∀ x ∈ m', x.1 ≠ k := by
          intro x hx habs
          exact hnd.1 (List.mem_map.mpr ⟨x, hx, by rw [habs, h]⟩)
        rw [List.filter_eq_self.mpr (fun a ha => by simpa using hnone a ha)]
        simp
      · rw [List.filter_cons_of_pos (by simp [h])]
        rw [List.length_cons, List.length_cons]
        have hsome' : (specLookup m' k).isSome := by
          rw [specLookup, if_neg (fun habs => h habs.symm)] at hsome
          exact hsome
        rw [ih hnd.2 hsome']

theorem nodup_keys_filter {α : Type} (m : List (List (Fin 256) × α))
    (pr : List (Fin 256) × α → Bool) (h : (m.map Prod.fst).Nodup) :
    ((m.filter pr).map Prod.fst).Nodup :=
  h.sublist (List.Sublist.map Prod.fst (List.filter_sublist m))

/-! ### The running invariant: trie state vs. reference map -/

/-- Correspondence of a trie state with the reference association list:
well-formed tree, identical lookups everywhere, matching size, and
duplicate-free keys in the model. -/
def TrieInv {α : Type} (t : Trie α) (m : List (List (Fin 256) × α)) : Prop :=
  t.head.WF ∧ (∀ k, subVal t.head k = specLookup m k) ∧
    t.elemCount = m.length ∧ (m.map Prod.fst).Nodup

theorem subVal_init {α : Type} [Inhabited α] (k : List (Fin 256)) :
    subVal (Trie.init α).head k = none := by
  rcases key_cases ([] : List (Fin 256)) k with h | h | ⟨c, r, h⟩
  · exact subVal_not_match _ _ _ _ _ _ _ h
  · subst h
    show subVal (.mk [] false default pop_tp.zero [] 0 0) [] = none
    rw [subVal_self]
    simp
  · subst h
    show subVal (.mk [] false default pop_tp.zero [] 0 0) ([] ++ c :: r) = none
    exact subVal_cons_none _ _ _ _ _ _ _ c r
      (lookupChild_eq_none _ _ (pop_tp.has_zero c))

theorem init_WF {α : Type} [Inhabited α] : (Trie.init α).head.WF := by
  refine Node.WF.mk _ _ _ _ _ _ _ pop_tp.wf_zero ?_ ?_
  · rw [pop_tp.bitsList_zero]
    rfl
  · intro x hx
    cases hx

theorem trieInv_init {α : Type} [Inhabited α] : TrieInv (Trie.init α) [] := by
  refine ⟨init_WF, ?_, rfl, List.nodup_nil⟩
  intro k
  rw [subVal_init]
  rfl

theorem eraseOp_none {α : Type} [Inhabited α] {t : Trie α}
    {k : List (Fin 256)} (h : eraseNode t.head k = none) :
    t.eraseOp k = (t, 0) := by
  unfold Trie.eraseOp
  rw [h]

theorem eraseOp_some {α : Type} [Inhabited α] {t : Trie α}
    {k : List (Fin 256)} {n' : Node α} (h : eraseNode t.head k = some n') :
    t.eraseOp k = (⟨n', t.elemCount - 1⟩, 1) := by
  unfold Trie.eraseOp
  rw [h]

theorem trieInv_step {α : Type} [Inhabited α] {t : Trie α}
    {m : List (List (Fin 256) × α)} (h : TrieInv t m) (op : Op α) :
    TrieInv (t.applyOp op) (specApply m op) := by
  obtain ⟨hwf, hval, hcnt, hnd⟩ := h
  cases op with
  | ins k v =>
      obtain ⟨hWF', hpe', hins, hself, hother⟩ := insertNode_spec t.head k v hwf
      show TrieInv (t.insertOp k v).1 (if (specLookup m k).isSome then m
        else (k, v) :: m)
      cases hmk : specLookup m k with
      | none =>
          have hsv : subVal t.head k = none := by rw [hval k, hmk]
          have hr2 : (insertNode t.head k v).2 = true := hins.mpr hsv
          simp only [Option.isSome_none, Bool.false_eq_true, if_false]
          refine ⟨hWF', ?_, ?_, ?_⟩
          · intro k'
            by_cases hkk : k' = k
            · subst hkk
              show subVal (insertNode t.head k' v).1 k' = _
              rw [hself, hsv, specLookup, if_pos rfl]
              rfl
            · show subVal (insertNode t.head k v).1 k' = _
              rw [hother k' hkk, hval k', specLookup, if_neg hkk]
          · show (if (insertNode t.head k v).2 then t.elemCount + 1
              else t.elemCount) = _
            rw [hr2, if_pos rfl, hcnt]
            rfl
          · rw [List.map_cons]
            refine List.Nodup.cons ?_ hnd
            intro habs
            rcases List.mem_map.mp habs with ⟨kv, hkv, hfst⟩
            have := (specLookup_eq_none_iff m k).mp hmk kv hkv
            exact this hfst
      | some w =>
          have hsv : subVal t.head k = some w := by rw [hval k, hmk]
          have hr2 : (insertNode t.head k v).2 = false := by
            cases hr : (insertNode t.head k v).2 with
            | true =>
                rw [hins.mp hr] at hsv
                cases hsv
            | false => rfl
          simp only [Option.isSome_some, if_true]
          refine ⟨hWF', ?_, ?_, hnd⟩
          · intro k'
            by_cases hkk : k' = k
            · subst hkk
              show subVal (insertNode t.head k' v).1 k' = _
              rw [hself, hsv, hmk]
              rfl
            · show subVal (insertNode t.head k v).1 k' = _
              rw [hother k' hkk, hval k']
          · show (if (insertNode t.head k v).2 then t.elemCount + 1
              else t.elemCount) = _
            rw [hr2]
            simp only [Bool.false_eq_true, if_false]
            exact hcnt
  | del k =>
      obtain ⟨hiff, hsome⟩ := eraseNode_spec t.head k hwf
      show TrieInv (t.eraseOp k).1 (m.filter (fun kv => kv.1 ≠ k))
      cases he : eraseNode t.head k with
      | none =>
          have hsv : subVal t.head k = none := hiff.mp he
          have hmk : specLookup m k = none := by rw [← hval k, hsv]
          have hfeq : m.filter (fun kv => kv.1 ≠ k) = m :=
            List.filter_eq_self.mpr (fun a ha => by
              simpa using (specLookup_eq_none_iff m k).mp hmk a ha)
          rw [eraseOp_none he, hfeq]
          exact ⟨hwf, hval, hcnt, hnd⟩
      | some n' =>
          obtain ⟨hWF', hpe', hnone', hother'⟩ := hsome n' he
          have hsv : subVal t.head k ≠ none := by
            intro habs
            rw [hiff.mpr habs] at he
            cases he
          have hmks : (specLookup m k).isSome := by
            rw [← hval k]
            exact Option.ne_none_iff_isSome.mp hsv
          rw [eraseOp_some he]
          refine ⟨hWF', ?_, ?_, nodup_keys_filter m _ hnd⟩
          · intro k'
            by_cases hkk : k' = k
            · subst hkk
              show subVal n' k' = _
              rw [hnone', specLookup_filter_self]
            · show subVal n' k' = _
              rw [hother' k' hkk, hval k', specLookup_filter_ne m hkk]
          · show t.elemCount - 1 = _
            have := filter_length_of_lookup_some m k hnd hmks
            omega

theorem run_inv {α : Type} [Inhabited α] (ops : List (Op α)) :
    TrieInv (Trie.run ops) (specRun ops) := by
  suffices h : ∀ (t : Trie α) (m : List (List (Fin 256) × α)), TrieInv t m →
      TrieInv (ops.foldl Trie.applyOp t) (ops.foldl specApply m) from
    h _ _ trieInv_init
  induction ops with
  | nil => intro t m h; exact h
  | cons op ops ih =>
      intro t m h
      exact ih _ _ (trieInv_step h op)

/-! ### Reachability inside a node tree -/

/-- `Reachable n m`: `m` is `n` itself or lies in the subtree below `n`. -/
inductive Reachable {α : Type} : Node α → Node α → Prop where
  | refl : ∀ n, Reachable n n
  | child : ∀ {n m : Node α} (c : Node α), c ∈ n.children → Reachable c m →
      Reachable n m

theorem WF_of_reachable {α : Type} {n m : Node α} (h : Reachable n m) :
    n.WF → m.WF := by
  induction h with
  | refl n => exact id
  | child c hc _ ih => intro hwf; exact ih (hwf.child c hc)

/-- The per-node popmap/children correspondence, read off a well-formed
node: the bitmap population count equals the child count, and the `i`-th
child hangs off the byte of the `i`-th set bit, which is its
`parent_edge`, through which `get_child` finds exactly that child. -/
theorem WF_popmap_children {α : Type} {n : Node α} (h : n.WF) :
    n.pop.count = n.children.length ∧
    ∀ i (hi : i < n.children.length),
      n.pop.bitsList[i]? =
        some (((n.children.get ⟨i, hi⟩).parentEdge : Nat)) ∧
      n.get_child (n.children.get ⟨i, hi⟩).parentEdge =
        some (n.children.get ⟨i, hi⟩) := by
  have hcorr := h.corr
  have hpw := h.pop_wf
  have hlen : n.pop.bitsList.length = n.children.length := by
    rw [← hcorr, List.length_map]
  refine ⟨?_, ?_⟩
  · rw [pop_tp.count_eq_length_bitsList hpw, hlen]
  · intro i hi
    have hib : i < n.pop.bitsList.length := by rw [hlen]; exact hi
    have hmap : n.pop.bitsList[i]? =
        some (((n.children.get ⟨i, hi⟩).parentEdge : Nat)) := by
      rw [← hcorr, List.getElem?_map]
      rw [List.getElem?_eq_getElem hi]
      rfl
    refine ⟨hmap, ?_⟩
    have hmem : ((n.children.get ⟨i, hi⟩).parentEdge : Nat) ∈
        n.pop.bitsList := by
      have hg := List.getElem?_eq_getElem hib
      rw [hmap] at hg
      have hgl := Option.some_injective _ hg
      rw [hgl]
      exact List.getElem_mem hib
    have hhas : n.pop.has (n.children.get ⟨i, hi⟩).parentEdge = true :=
      (pop_tp.has_iff_mem_bitsList _).mpr hmem
    show lookupChild n.pop n.children _ = _
    rw [lookupChild_eq_getElem hpw _ hhas]
    have hrank : n.pop.rank ((n.children.get ⟨i, hi⟩).parentEdge : Nat) = i := by
      have hgl : n.pop.bitsList[i] =
          ((n.children.get ⟨i, hi⟩).parentEdge : Nat) := by
        have := List.getElem?_eq_getElem hib
        rw [hmap] at this
        exact (Option.some_injective _ this.symm)
      unfold pop_tp.rank
      rw [← hgl]
      exact countP_lt_getElem_of_pairwise (pop_tp.pairwise_bitsList n.pop) hib
    rw [hrank]
    rw [List.getElem?_eq_getElem hi]
    rfl

/-! ### Shape of non-root nodes (the erase/compaction invariant) -/

/-- The shape the spec requires of every non-root node: it stores a value
or has at least two children. -/
def Node.okShape {α : Type} (m : Node α) : Prop :=
  m.hasData = true ∨ 2 ≤ m.children.length

/-- Every node strictly below `n` (its children and their descendants)
has the required non-root shape. -/
def Node.allGood {α : Type} (n : Node α) : Prop :=
  ∀ c ∈ n.children, ∀ m, Reachable c m → m.okShape

/-- A whole non-root subtree has the required shape. -/
def Node.subGood {α : Type} (n : Node α) : Prop :=
  ∀ m, Reachable n m → m.okShape

theorem subGood_iff {α : Type} (n : Node α) :
    n.subGood ↔ n.okShape ∧ n.allGood := by
  constructor
  · intro h
    refine ⟨h n (Reachable.refl n), ?_⟩
    intro c hc m hm
    exact h m (Reachable.child c hc hm)
  · rintro ⟨hok, hall⟩ m hm
    cases hm with
    | refl => exact hok
    | child c hc hr => exact hall c hc m hr

theorem subGood_leaf {α : Type} (sk : List (Fin 256)) (v : α) (e : Fin 256)
    (ver : Nat) : Node.subGood (.mk sk true v pop_tp.zero [] e ver) := by
  intro m hm
  cases hm with
  | refl => exact Or.inl rfl
  | child c hc _ => cases hc

set_option maxHeartbeats 1000000 in
theorem insertNode_good {α : Type} [Inhabited α] (n : Node α)
    (rest : List (Fin 256)) (v : α) :
    n.WF →
      (n.subGood → (insertNode n rest v).1.subGood) ∧
      (n.skip = [] → n.allGood →
        (insertNode n rest v).1.allGood ∧ (insertNode n rest v).1.skip = []) := by
  induction n, rest, v using insertNode.induct with
  | case1 rest v s hd d p ch e ver common h1 =>
      intro hwf
      rw [insertNode_caseA s hd d p ch e ver rest v h1]
      refine ⟨?_, ?_⟩
      · intro hsg
        rw [subGood_iff] at hsg ⊢
        exact ⟨Or.inl rfl, hsg.2⟩
      · intro hsk hall
        exact ⟨hall, hsk⟩
  | case2 rest v s hd d p ch e ver common h1 h2 =>
      intro hwf
      have h1' : ¬(commonPrefixLen s rest = rest.length ∧
          commonPrefixLen s rest = s.length) := h1
      have h2' : commonPrefixLen s rest = rest.length := h2
      rw [insertNode_caseB s hd d p ch e ver rest v h1' h2']
      have hr1 : (pop_tp.zero.set_bit (s.getD (commonPrefixLen s rest) 0)).1
          = 0 := by
        rw [pop_tp.set_bit_fst pop_tp.wf_zero, pop_tp.rank_zero]
      rw [hr1, List.insertIdx_zero]
      refine ⟨?_, ?_⟩
      · intro hsg
        rw [subGood_iff] at hsg
        rw [subGood_iff]
        refine ⟨Or.inl rfl, ?_⟩
        intro c hc m hm
        rcases List.mem_singleton.mp hc with rfl
        exact (subGood_iff (Node.mk (List.drop (commonPrefixLen s rest + 1) s)
          hd d p ch (s.getD (commonPrefixLen s rest) 0) 0)).mpr
          ⟨hsg.1, hsg.2⟩ m hm
      · intro hsk hall
        exfalso
        apply h1'
        refine ⟨h2', ?_⟩
        have hs : s = [] := hsk
        subst hs
        have hle := commonPrefixLen_le_left ([] : List (Fin 256)) rest
        simp only [List.length_nil] at hle ⊢
        omega
  | case3 rest v s hd d p ch e ver common h1 h2 h3 c child hlc ih =>
      intro hwf
      have hwf' := hwf
      cases hwf with
      | mk _ _ _ _ _ _ _ hpw hcorr hch =>
      have h1' : ¬(commonPrefixLen s rest = rest.length ∧
          commonPrefixLen s rest = s.length) := h1
      have h2' : ¬commonPrefixLen s rest = rest.length := h2
      have h3' : commonPrefixLen s rest = s.length := h3
      have hlc' : lookupChild p ch (rest.getD (commonPrefixLen s rest) 0)
          = some child := hlc
      rw [insertNode_caseE s hd d p ch e ver rest v child h1' h2' h3' hlc']
      have hchmem : child ∈ ch := by
        have hhas : p.has (rest.getD (commonPrefixLen s rest) 0) = true := by
          cases hph : p.has (rest.getD (commonPrefixLen s rest) 0) with
          | true => rfl
          | false =>
              rw [lookupChild_eq_none p ch hph] at hlc'
              cases hlc'
        obtain ⟨child0, hl0, hmem0, _, _⟩ :=
          lookupChild_some hpw hcorr hhas
        rw [hlc'] at hl0
        cases hl0
        exact hmem0
      have hchildWF : child.WF := hch child hchmem
      have ihsub : child.subGood →
          (insertNode child (rest.drop (commonPrefixLen s rest + 1)) v).1.subGood :=
        (ih hchildWF).1
      have hmem : ∀ x ∈ ch.set
          ((p.find_pop (rest.getD (commonPrefixLen s rest) 0)).getD 0)
          (insertNode child (rest.drop (commonPrefixLen s rest + 1)) v).1,
          x ∈ ch ∨ x = (insertNode child
            (rest.drop (commonPrefixLen s rest + 1)) v).1 := by
        intro x hx
        exact List.mem_or_eq_of_mem_set hx
      refine ⟨?_, ?_⟩
      · intro hsg
        rw [subGood_iff] at hsg
        rw [subGood_iff]
        refine ⟨?_, ?_⟩
        · rcases hsg.1 with hok | hok
          · exact Or.inl hok
          · refine Or.inr ?_
            show 2 ≤ (ch.set _ _).length
            rw [List.length_set]
            exact hok
        · intro c1 hc1 m hm
          rcases hmem c1 hc1 with hcch | rfl
          · exact hsg.2 c1 hcch m hm
          · exact ihsub (fun m' hm' => hsg.2 child hchmem m' hm') m hm
      · intro hsk hall
        refine ⟨?_, hsk⟩
        intro c1 hc1 m hm
        rcases hmem c1 hc1 with hcch | rfl
        · exact hall c1 hcch m hm
        · exact ihsub (fun m' hm' => hall child hchmem m' hm') m hm
  | case4 rest v s hd d p ch e ver common h1 h2 h3 c hlc =>
      intro hwf
      cases hwf with
      | mk _ _ _ _ _ _ _ hpw hcorr hch =>
      have h1' : ¬(commonPrefixLen s rest = rest.length ∧
          commonPrefixLen s rest = s.length) := h1
      have h2' : ¬commonPrefixLen s rest = rest.length := h2
      have h3' : commonPrefixLen s rest = s.length := h3
      have hlc' : lookupChild p ch (rest.getD (commonPrefixLen s rest) 0)
          = none := hlc
      rw [insertNode_caseC s hd d p ch e ver rest v h1' h2' h3' hlc']
      have hkle : (p.set_bit (rest.getD (commonPrefixLen s rest) 0)).1 ≤
          ch.length := by
        rw [pop_tp.set_bit_fst hpw, corr_length hcorr]
        exact pop_tp.rank_le_length _ _
      have hmem : ∀ x ∈ List.insertIdx
          (p.set_bit (rest.getD (commonPrefixLen s rest) 0)).1
          (Node.mk (rest.drop (commonPrefixLen s rest + 1)) true v pop_tp.zero
            [] (rest.getD (commonPrefixLen s rest) 0) 0) ch,
          x = (Node.mk (rest.drop (commonPrefixLen s rest + 1)) true v
            pop_tp.zero [] (rest.getD (commonPrefixLen s rest) 0) 0) ∨
            x ∈ ch := by
        intro x hx
        exact (List.mem_insertIdx hkle).mp hx
      have hlen : (List.insertIdx
          (p.set_bit (rest.getD (commonPrefixLen s rest) 0)).1
          (Node.mk (rest.drop (commonPrefixLen s rest + 1)) true v pop_tp.zero
            [] (rest.getD (commonPrefixLen s rest) 0) 0) ch).length =
          ch.length + 1 :=
        List.length_insertIdx _ _ hkle
      refine ⟨?_, ?_⟩
      · intro hsg
        rw [subGood_iff] at hsg
        rw [subGood_iff]
        refine ⟨?_, ?_⟩
        · rcases hsg.1 with hok | hok
          · exact Or.inl hok
          · refine Or.inr ?_
            show 2 ≤ (List.insertIdx _ _ ch).length
            rw [hlen]
            have hok' : 2 ≤ ch.length := hok
            omega
        · intro c1 hc1 m hm
          rcases hmem c1 hc1 with rfl | hcch
          · exact subGood_leaf _ _ _ _ m hm
          · exact hsg.2 c1 hcch m hm
      · intro hsk hall
        refine ⟨?_, hsk⟩
        intro c1 hc1 m hm
        rcases hmem c1 hc1 with rfl | hcch
        · exact subGood_leaf _ _ _ _ m hm
        · exact hall c1 hcch m hm
  | case5 rest v s hd d p ch e ver common h1 h2 h3 =>
      intro hwf
      have h1' : ¬(commonPrefixLen s rest = rest.length ∧
          commonPrefixLen s rest = s.length) := h1
      have h2' : ¬commonPrefixLen s rest = rest.length := h2
      have h3' : ¬commonPrefixLen s rest = s.length := h3
      rw [insertNode_caseD s hd d p ch e ver rest v h1' h2' h3']
      have hr1 : (pop_tp.zero.set_bit (s.getD (commonPrefixLen s rest) 0)).1
          = 0 := by
        rw [pop_tp.set_bit_fst pop_tp.wf_zero, pop_tp.rank_zero]
      rw [hr1, List.insertIdx_zero]
      have hcorrz : (([] : List (Node α)).map (fun x => (x.parentEdge : Nat)))
          = pop_tp.zero.bitsList := by
        rw [pop_tp.bitsList_zero]
        rfl
      have hP1wf := pop_tp.wf_set_bit pop_tp.wf_zero
        (s.getD (commonPrefixLen s rest) 0)
      have hcorr1 := @corr_insert α pop_tp.zero pop_tp.wf_zero [] hcorrz
        (s.getD (commonPrefixLen s rest) 0)
        (pop_tp.has_zero (s.getD (commonPrefixLen s rest) 0))
        (Node.mk (s.drop (commonPrefixLen s rest + 1)) hd d p ch
          (s.getD (commonPrefixLen s rest) 0) 0) rfl
      rw [hr1, List.insertIdx_zero] at hcorr1
      have hkle2 : (((pop_tp.zero.set_bit
          (s.getD (commonPrefixLen s rest) 0)).2.set_bit
          (rest.getD (commonPrefixLen s rest) 0)).1 ≤
          ([Node.mk (s.drop (commonPrefixLen s rest + 1)) hd d p ch
            (s.getD (commonPrefixLen s rest) 0) 0] : List (Node α)).length) := by
        rw [pop_tp.set_bit_fst hP1wf, corr_length hcorr1]
        exact pop_tp.rank_le_length _ _
      have hmem : ∀ x ∈ List.insertIdx
          ((pop_tp.zero.set_bit (s.getD (commonPrefixLen s rest) 0)).2.set_bit
            (rest.getD (commonPrefixLen s rest) 0)).1
          (Node.mk (rest.drop (commonPrefixLen s rest + 1)) true v pop_tp.zero
            [] (rest.getD (commonPrefixLen s rest) 0) 0)
          [Node.mk (s.drop (commonPrefixLen s rest + 1)) hd d p ch
            (s.getD (commonPrefixLen s rest) 0) 0],
          x = (Node.mk (rest.drop (commonPrefixLen s rest + 1)) true v
            pop_tp.zero [] (rest.getD (commonPrefixLen s rest) 0) 0) ∨
            x = (Node.mk (s.drop (commonPrefixLen s rest + 1)) hd d p ch
              (s.getD (commonPrefixLen s rest) 0) 0) := by
        intro x hx
        rcases (List.mem_insertIdx hkle2).mp hx with h | h
        · exact Or.inl h
        · exact Or.inr (List.mem_singleton.mp h)
      refine ⟨?_, ?_⟩
      · intro hsg
        rw [subGood_iff] at hsg
        rw [subGood_iff]
        refine ⟨?_, ?_⟩
        · refine Or.inr ?_
          show 2 ≤ (List.insertIdx _ _ _).length
          rw [List.length_insertIdx _ _ hkle2]
          rfl
        · intro c1 hc1 m hm
          rcases hmem c1 hc1 with rfl | rfl
          · exact subGood_leaf _ _ _ _ m hm
          · exact (subGood_iff (Node.mk (List.drop (commonPrefixLen s rest + 1)
              s) hd d p ch (s.getD (commonPrefixLen s rest) 0) 0)).mpr
              ⟨hsg.1, hsg.2⟩ m hm
      · intro hsk hall
        exfalso
        apply h3'
        have hs : s = [] := hsk
        subst hs
        have hle := commonPrefixLen_le_left ([] : List (Fin 256)) rest
        simp only [List.length_nil] at hle ⊢
        omega


/-! ### Small-trie evaluation lemmas -/

theorem lookupChild_singleton {α : Type} (c : Fin 256) (x : Node α)
    (d : Fin 256) :
    lookupChild (pop_tp.zero.set_bit c).2 [x] d =
      if d = c then some x else none := by
  have hcorrz : (([] : List (Node α)).map (fun y => (y.parentEdge : Nat)))
      = pop_tp.zero.bitsList := by
    rw [pop_tp.bitsList_zero]
    rfl
  have hr1 : (pop_tp.zero.set_bit c).1 = 0 := by
    rw [pop_tp.set_bit_fst pop_tp.wf_zero, pop_tp.rank_zero]
  have h := @lookupChild_insert α pop_tp.zero pop_tp.wf_zero [] hcorrz c
    (pop_tp.has_zero c) x d
  rw [hr1, List.insertIdx_zero] at h
  rw [h]
  by_cases hd : d = c
  · rw [if_pos hd, if_pos hd]
  · rw [if_neg hd, if_neg hd, lookupChild_eq_none _ _ (pop_tp.has_zero d)]

/-- Insert of a non-empty key into an empty node (no children, no skip):
C++ insert Case C applied at the root of an empty trie. -/
theorem insertNode_empty_node {α : Type} [Inhabited α] (hd : Bool) (d : α)
    (e : Fin 256) (ver : Nat) (c : Fin 256) (r : List (Fin 256)) (v : α) :
    insertNode (.mk [] hd d pop_tp.zero [] e ver) (c :: r) v
      = (.mk [] hd d (pop_tp.zero.set_bit c).2
          [.mk r true v pop_tp.zero [] c 0] e (ver + 1), true) := by
  have h1 : ¬(commonPrefixLen [] (c :: r) = (c :: r).length ∧
      commonPrefixLen [] (c :: r) = ([] : List (Fin 256)).length) := by
    intro habs
    have := habs.1
    simp [commonPrefixLen] at this
  have h2 : ¬commonPrefixLen [] (c :: r) = (c :: r).length := by
    intro habs
    simp [commonPrefixLen] at habs
  have h3 : commonPrefixLen [] (c :: r) = ([] : List (Fin 256)).length := rfl
  have hlc : lookupChild pop_tp.zero ([] : List (Node α))
      ((c :: r).getD (commonPrefixLen [] (c :: r)) 0) = none :=
    lookupChild_eq_none _ _ (pop_tp.has_zero _)
  rw [insertNode_caseC [] hd d pop_tp.zero [] e ver (c :: r) v h1 h2 h3 hlc]
  have hr1 : (pop_tp.zero.set_bit
      ((c :: r).getD (commonPrefixLen [] (c :: r)) 0)).1 = 0 := by
    rw [pop_tp.set_bit_fst pop_tp.wf_zero, pop_tp.rank_zero]
  rw [hr1, List.insertIdx_zero]
  rfl

/-- Insert under the unique child of a node whose skip is empty: C++ insert
Case E with a one-child popmap. -/
theorem insertNode_single_child {α : Type} [Inhabited α] (hd : Bool) (d : α)
    (e : Fin 256) (ver : Nat) (c : Fin 256) (r : List (Fin 256)) (v : α)
    (child : Node α) (hr : r ≠ []) :
    insertNode (.mk [] hd d (pop_tp.zero.set_bit c).2 [child] e ver) (c :: r) v
      = (.mk [] hd d (pop_tp.zero.set_bit c).2
          [(insertNode child r v).1] e ver, (insertNode child r v).2) := by
  have h1 : ¬(commonPrefixLen [] (c :: r) = (c :: r).length ∧
      commonPrefixLen [] (c :: r) = ([] : List (Fin 256)).length) := by
    intro habs
    have := habs.1
    simp [commonPrefixLen] at this
  have h2 : ¬commonPrefixLen [] (c :: r) = (c :: r).length := by
    intro habs
    simp [commonPrefixLen] at habs
  have h3 : commonPrefixLen [] (c :: r) = ([] : List (Fin 256)).length := rfl
  have hlc : lookupChild (pop_tp.zero.set_bit c).2 [child]
      ((c :: r).getD (commonPrefixLen [] (c :: r)) 0) = some child := by
    show lookupChild (pop_tp.zero.set_bit c).2 [child] c = some child
    rw [lookupChild_singleton, if_pos rfl]
  rw [insertNode_caseE [] hd d (pop_tp.zero.set_bit c).2 [child] e ver (c :: r)
    v child h1 h2 h3 hlc]
  have hfp : ((pop_tp.zero.set_bit c).2.find_pop
      ((c :: r).getD (commonPrefixLen [] (c :: r)) 0)).getD 0 = 0 := by
    show ((pop_tp.zero.set_bit c).2.find_pop c).getD 0 = 0
    rw [pop_tp.find_pop_eq (pop_tp.wf_set_bit pop_tp.wf_zero c) c]
    rw [if_pos]
    · show (pop_tp.zero.set_bit c).2.rank c.val = 0
      rw [pop_tp.rank_set_bit_self pop_tp.wf_zero c (pop_tp.has_zero c),
        pop_tp.rank_zero]
    · rw [pop_tp.has_set_bit]
      simp
  rw [hfp]
  rfl

/-- Erase under the unique child of a node whose skip is empty. -/
theorem eraseNode_single_child {α : Type} [Inhabited α] (hd : Bool) (d : α)
    (e : Fin 256) (ver : Nat) (c : Fin 256) (r : List (Fin 256))
    (child child' : Node α) (h : eraseNode child r = some child') :
    eraseNode (.mk [] hd d (pop_tp.zero.set_bit c).2 [child] e ver) (c :: r)
      = some (.mk [] hd d (pop_tp.zero.set_bit c).2 [child'] e ver) := by
  have hlc : lookupChild (pop_tp.zero.set_bit c).2 [child] c = some child := by
    rw [lookupChild_singleton, if_pos rfl]
  have hstep := eraseNode_cons_some [] hd d (pop_tp.zero.set_bit c).2 [child]
    e ver c r hlc
  rw [show ([] : List (Fin 256)) ++ c :: r = c :: r from rfl] at hstep
  rw [hstep, h]
  have hfp : ((pop_tp.zero.set_bit c).2.find_pop c).getD 0 = 0 := by
    rw [pop_tp.find_pop_eq (pop_tp.wf_set_bit pop_tp.wf_zero c) c]
    rw [if_pos]
    · show (pop_tp.zero.set_bit c).2.rank c.val = 0
      rw [pop_tp.rank_set_bit_self pop_tp.wf_zero c (pop_tp.has_zero c),
        pop_tp.rank_zero]
    · rw [pop_tp.has_set_bit]
      simp
  rw [hfp]
  rfl

/-! ### The forward iterator (`tktrie_iterator`) -/

/-- Cast of a raw byte value (as returned by `first_char`/`next_char`) to
a byte; the C++ casts to `char`. -/
def toByte (n : Nat) : Fin 256 := ⟨n % 256, Nat.mod_lt n (by decide)⟩

/-- An iterator position: the chain of ancestors of `current` (innermost
first, each with the edge byte taken out of it — the C++ reaches them via
`get_parent`/`get_parent_edge`), plus the current node and `current_key`. -/
structure IterPos (α : Type) where
  stack : List (Node α × Fin 256)
  node : Node α
  key : List (Fin 256)

/-- The ascend loop shared by `find_next_data` and `advance` (`while (n)`
over `get_parent`): climb until an ancestor has a next sibling after the
edge just climbed from; deliver that sibling with its stack and prefix, or
`none` when the root is exhausted. -/
def findUp {α : Type} :
    List (Node α × Fin 256) → Node α → List (Fin 256) →
      Option (List (Node α × Fin 256) × Node α × List (Fin 256))
  | [], _, _ => none
  | (p, edge) :: stack', n, ck =>
      let pk := ck.take (ck.length - n.skip.length - 1)
      let next := p.pop.next_char edge
      if next ≠ 0 then
        match p.get_child (toByte next) with
        | some sib => some ((p, toByte next) :: stack', sib, pk ++ [toByte next])
        | none => none
      else findUp stack' p pk

/-- `tktrie_iterator::find_next_data`, with explicit fuel for the descend
loop (the C++ loop terminates on tree depth). -/
def findNextData {α : Type} :
    Nat → List (Node α × Fin 256) → Node α → List (Fin 256) →
      Option (IterPos α)
  | 0, _, _, _ => none
  | fuel + 1, stack, n, pre =>
      let ck := pre ++ n.skip
      if n.hasData then some ⟨stack, n, ck⟩
      else
        let fc := n.pop.first_char
        if fc ≠ 0 then
          match n.get_child (toByte fc) with
          | some child =>
              findNextData fuel ((n, toByte fc) :: stack) child (ck ++ [toByte fc])
          | none => none
        else
          match findUp stack n ck with
          | some (stack', sib, pre') => findNextData fuel stack' sib pre'
          | none => none

/-- `tktrie_iterator::advance`. -/
def iterAdvance {α : Type} (fuel : Nat) (it : IterPos α) :
    Option (IterPos α) :=
  let fc := it.node.pop.first_char
  if fc ≠ 0 then
    match it.node.get_child (toByte fc) with
    | some child =>
        findNextData fuel ((it.node, toByte fc) :: it.stack) child
          (it.key ++ [toByte fc])
    | none => none
  else
    match findUp it.stack it.node it.key with
    | some (stack', sib, pre') => findNextData fuel stack' sib pre'
    | none => none

/-- `begin()`: `find_next_data(root, "")`. -/
def iterBegin {α : Type} (fuel : Nat) (root : Node α) : Option (IterPos α) :=
  findNextData fuel [] root []

/-- The keys emitted by iterating from a position to `end()` (bounded by
`steps`). -/
def iterKeys {α : Type} (fuel : Nat) :
    Nat → Option (IterPos α) → List (List (Fin 256))
  | 0, _ => []
  | _, none => []
  | steps + 1, some it => it.key :: iterKeys fuel steps (iterAdvance fuel it)

/-- The full forward iteration of a trie. -/
def trieKeys {α : Type} (fuel steps : Nat) (t : Trie α) :
    List (List (Fin 256)) :=
  iterKeys fuel steps (iterBegin fuel t.head)

theorem ctz_two_pow : ∀ n : Nat, ctz (2 ^ n) = n
  | 0 => by rw [ctz]; norm_num
  | n + 1 => by
      have hne : (2 : Nat) ^ (n + 1) ≠ 0 :=
        Nat.pos_iff_ne_zero.mp (Nat.pos_pow_of_pos (n + 1) (by decide))
      have hmod : (2 : Nat) ^ (n + 1) % 2 = 0 := by
        rw [Nat.pow_succ]
        exact Nat.mul_mod_left (2 ^ n) 2
      have hdiv : (2 : Nat) ^ (n + 1) / 2 = 2 ^ n := by
        rw [Nat.pow_succ]
        exact Nat.mul_div_cancel _ (by decide)
      rw [ctz, dif_neg hne, if_neg (by omega), hdiv, ctz_two_pow n]
      omega

theorem set_bit_97_eq : (pop_tp.zero.set_bit 97).2 = ⟨0, 2 ^ 33, 0, 0⟩ := by
  simp [pop_tp.set_bit, pop_tp.setWord, pop_tp.word, pop_tp.zero]
  decide

theorem next_char_97_end : pop_tp.next_char (pop_tp.zero.set_bit 97).2 97 = 0 := by
  decide

theorem first_char_set_bit_0 : pop_tp.first_char (pop_tp.zero.set_bit 0).2 = 0 := by
  simp [pop_tp.set_bit, pop_tp.setWord, pop_tp.word, pop_tp.zero,
    pop_tp.first_char, ctz]

theorem first_char_set_bit_97 :
    pop_tp.first_char (pop_tp.zero.set_bit 97).2 = 97 := by
  rw [set_bit_97_eq]
  rw [pop_tp.first_char]
  rw [if_neg (by decide), if_pos (by norm_num)]
  rw [ctz_two_pow 33]

theorem insertOp_eq {α : Type} [Inhabited α] (t : Trie α) (k : List (Fin 256))
    (v : α) (n' : Node α) (b : Bool) (h : insertNode t.head k v = (n', b)) :
    t.insertOp k v = (⟨n', if b then t.elemCount + 1 else t.elemCount⟩, b) := by
  unfold Trie.insertOp
  rw [h]

/-- The two-key scenario `{"a" ↦ 1, "a\0" ↦ 2}` (bytes `[97]` and
`[97, 0]`): the state the trie reaches after the two inserts. -/
theorem run_keys_97_970 :
    Trie.run [Op.ins ([97] : List (Fin 256)) (1 : Nat), Op.ins [97, 0] 2]
      = ⟨Node.mk [] false default (pop_tp.zero.set_bit 97).2
          [Node.mk [] true 1 (pop_tp.zero.set_bit 0).2
            [Node.mk [] true 2 pop_tp.zero [] 0 0] 97 1] 0 1, 2⟩ := by
  have hi1 : insertNode (Node.mk ([] : List (Fin 256)) false (default : Nat)
      pop_tp.zero [] 0 0) [97] 1
      = (Node.mk [] false default (pop_tp.zero.set_bit 97).2
          [Node.mk [] true 1 pop_tp.zero [] 97 0] 0 1, true) :=
    insertNode_empty_node false default 0 0 97 [] 1
  have hi2inner : insertNode (Node.mk ([] : List (Fin 256)) true (1 : Nat)
      pop_tp.zero [] 97 0) [0] 2
      = (Node.mk [] true 1 (pop_tp.zero.set_bit 0).2
          [Node.mk [] true 2 pop_tp.zero [] 0 0] 97 1, true) :=
    insertNode_empty_node true 1 97 0 0 [] 2
  have hi2 : insertNode (Node.mk ([] : List (Fin 256)) false (default : Nat)
      (pop_tp.zero.set_bit 97).2 [Node.mk [] true 1 pop_tp.zero [] 97 0] 0 1)
      [97, 0] 2
      = (Node.mk [] false default (pop_tp.zero.set_bit 97).2
          [Node.mk [] true 1 (pop_tp.zero.set_bit 0).2
            [Node.mk [] true 2 pop_tp.zero [] 0 0] 97 1] 0 1, true) := by
    have h := insertNode_single_child false default 0 1 97 [0] 2
      (Node.mk [] true 1 pop_tp.zero [] 97 0) (by simp)
    rw [hi2inner] at h
    exact h
  show Trie.applyOp (Trie.applyOp (Trie.init Nat) (Op.ins [97] 1))
      (Op.ins [97, 0] 2) = _
  have ht1 : Trie.applyOp (Trie.init Nat) (Op.ins [97] 1)
      = ⟨Node.mk [] false default (pop_tp.zero.set_bit 97).2
          [Node.mk [] true 1 pop_tp.zero [] 97 0] 0 1, 1⟩ := by
    show (Trie.insertOp (Trie.init Nat) [97] 1).1 = _
    rw [insertOp_eq (Trie.init Nat) [97] 1 _ _ hi1]
    rfl
  rw [ht1]
  show (Trie.insertOp _ [97, 0] 2).1 = _
  rw [insertOp_eq _ [97, 0] 2 _ _ hi2]
  rfl

/-! Step equations for the iterator model. -/

theorem findNextData_data {α : Type} (fuel : Nat)
    (stack : List (Node α × Fin 256)) (n : Node α) (pre : List (Fin 256))
    (h : n.hasData = true) :
    findNextData (fuel + 1) stack n pre = some ⟨stack, n, pre ++ n.skip⟩ := by
  rw [findNextData]
  rw [if_pos h]

theorem findNextData_descend {α : Type} (fuel : Nat)
    (stack : List (Node α × Fin 256)) (n : Node α) (pre : List (Fin 256))
    (fc : Nat) (child : Node α) (h : n.hasData = false)
    (hfc : n.pop.first_char = fc) (hfc0 : fc ≠ 0)
    (hc : n.get_child (toByte fc) = some child) :
    findNextData (fuel + 1) stack n pre =
      findNextData fuel ((n, toByte fc) :: stack) child
        (pre ++ n.skip ++ [toByte fc]) := by
  rw [findNextData]
  rw [if_neg (by rw [h]; intro habs; cases habs)]
  simp only [hfc]
  rw [if_pos hfc0, hc]

theorem findNextData_up {α : Type} (fuel : Nat)
    (stack : List (Node α × Fin 256)) (n : Node α) (pre : List (Fin 256))
    (h : n.hasData = false) (hfc : n.pop.first_char = 0)
    (hup : findUp stack n (pre ++ n.skip) = none) :
    findNextData (fuel + 1) stack n pre = none := by
  rw [findNextData]
  rw [if_neg (by rw [h]; intro habs; cases habs)]
  simp only [hfc]
  rw [if_neg (by simp), hup]

theorem findUp_nil {α : Type} (n : Node α) (ck : List (Fin 256)) :
    findUp ([] : List (Node α × Fin 256)) n ck = none := rfl

theorem findUp_cons_up {α : Type} (p : Node α) (edge : Fin 256)
    (stack' : List (Node α × Fin 256)) (n : Node α) (ck : List (Fin 256))
    (h : p.pop.next_char edge = 0) :
    findUp ((p, edge) :: stack') n ck =
      findUp stack' p (ck.take (ck.length - n.skip.length - 1)) := by
  rw [findUp]
  simp only [h]
  rw [if_neg (by simp)]

theorem iterKeys_end {α : Type} (fuel steps : Nat) :
    iterKeys fuel (steps + 1) (none : Option (IterPos α)) = [] := rfl

theorem iterKeys_step {α : Type} (fuel steps : Nat) (it : IterPos α) :
    iterKeys fuel (steps + 1) (some it) =
      it.key :: iterKeys fuel steps (iterAdvance fuel it) := rfl

theorem iterAdvance_end {α : Type} (fuel : Nat) (it : IterPos α)
    (hfc : it.node.pop.first_char = 0)
    (hup : findUp it.stack it.node it.key = none) :
    iterAdvance fuel it = none := by
  unfold iterAdvance
  simp only [hfc]
  rw [if_neg (by simp), hup]

/-- Iterating that state emits only `[97]`: the node holding `[97, 0]` is
skipped because `first_char` returns the byte `0`, which the iterator
condition `fc != '\0'` conflates with "no children". -/
theorem iter_keys_97_970 :
    trieKeys 5 5 (Trie.run [Op.ins ([97] : List (Fin 256)) (1 : Nat),
      Op.ins [97, 0] 2]) = [[97]] := by
  rw [run_keys_97_970]
  show iterKeys 5 5 (findNextData 5 []
    (Node.mk [] false default (pop_tp.zero.set_bit 97).2
      [Node.mk [] true 1 (pop_tp.zero.set_bit 0).2
        [Node.mk [] true 2 pop_tp.zero [] 0 0] 97 1] 0 1) []) = [[97]]
  have hstep1 : findNextData 5 ([] : List (Node Nat × Fin 256))
      (Node.mk [] false default (pop_tp.zero.set_bit 97).2
        [Node.mk [] true 1 (pop_tp.zero.set_bit 0).2
          [Node.mk [] true 2 pop_tp.zero [] 0 0] 97 1] 0 1) []
      = findNextData 4
        [(Node.mk [] false default (pop_tp.zero.set_bit 97).2
          [Node.mk [] true 1 (pop_tp.zero.set_bit 0).2
            [Node.mk [] true 2 pop_tp.zero [] 0 0] 97 1] 0 1, 97)]
        (Node.mk [] true 1 (pop_tp.zero.set_bit 0).2
          [Node.mk [] true 2 pop_tp.zero [] 0 0] 97 1) [97] := by
    have h := findNextData_descend 4 ([] : List (Node Nat × Fin 256))
      (Node.mk [] false default (pop_tp.zero.set_bit 97).2
        [Node.mk [] true 1 (pop_tp.zero.set_bit 0).2
          [Node.mk [] true 2 pop_tp.zero [] 0 0] 97 1] 0 1) []
      97 (Node.mk [] true 1 (pop_tp.zero.set_bit 0).2
        [Node.mk [] true 2 pop_tp.zero [] 0 0] 97 1)
      rfl first_char_set_bit_97 (by decide)
      (by show lookupChild (pop_tp.zero.set_bit 97).2
            [Node.mk [] true 1 (pop_tp.zero.set_bit 0).2
              [Node.mk [] true 2 pop_tp.zero [] 0 0] 97 1] (toByte 97)
            = some (Node.mk [] true 1 (pop_tp.zero.set_bit 0).2
              [Node.mk [] true 2 pop_tp.zero [] 0 0] 97 1)
          rw [lookupChild_singleton]
          rw [if_pos (by decide)])
    exact h
  have hstep2 : findNextData 4
      [(Node.mk ([] : List (Fin 256)) false (default : Nat)
        (pop_tp.zero.set_bit 97).2
        [Node.mk [] true 1 (pop_tp.zero.set_bit 0).2
          [Node.mk [] true 2 pop_tp.zero [] 0 0] 97 1] 0 1, 97)]
      (Node.mk [] true 1 (pop_tp.zero.set_bit 0).2
        [Node.mk [] true 2 pop_tp.zero [] 0 0] 97 1) [97]
      = some ⟨[(Node.mk [] false default (pop_tp.zero.set_bit 97).2
          [Node.mk [] true 1 (pop_tp.zero.set_bit 0).2
            [Node.mk [] true 2 pop_tp.zero [] 0 0] 97 1] 0 1, 97)],
        Node.mk [] true 1 (pop_tp.zero.set_bit 0).2
          [Node.mk [] true 2 pop_tp.zero [] 0 0] 97 1, [97]⟩ :=
    findNextData_data 3 _ _ _ rfl
  have hadv : iterAdvance 5 (⟨[(Node.mk [] false default
      (pop_tp.zero.set_bit 97).2
      [Node.mk [] true 1 (pop_tp.zero.set_bit 0).2
        [Node.mk [] true 2 pop_tp.zero [] 0 0] 97 1] 0 1, 97)],
      Node.mk [] true 1 (pop_tp.zero.set_bit 0).2
        [Node.mk [] true 2 pop_tp.zero [] 0 0] 97 1, [97]⟩ : IterPos Nat)
      = none := by
    refine iterAdvance_end 5 _ first_char_set_bit_0 ?_
    show findUp [(Node.mk [] false default (pop_tp.zero.set_bit 97).2
        [Node.mk [] true 1 (pop_tp.zero.set_bit 0).2
          [Node.mk [] true 2 pop_tp.zero [] 0 0] 97 1] 0 1, 97)]
      (Node.mk [] true 1 (pop_tp.zero.set_bit 0).2
        [Node.mk [] true 2 pop_tp.zero [] 0 0] 97 1) [97] = none
    rw [findUp_cons_up _ _ _ _ _ (show (Node.mk ([] : List (Fin 256)) false
      (default : Nat) (pop_tp.zero.set_bit 97).2
      [Node.mk [] true 1 (pop_tp.zero.set_bit 0).2
        [Node.mk [] true 2 pop_tp.zero [] 0 0] 97 1] 0 1).pop.next_char 97 = 0
      from next_char_97_end)]
    rw [findUp_nil]
  rw [hstep1, hstep2]
  rw [show (5 : Nat) = 4 + 1 from rfl, iterKeys_step]
  rw [hadv]
  rw [iterKeys_end]

/-! ### Insert-only runs keep the non-root shape -/

/-- Whether an operation is an insert. -/
def Op.isIns {α : Type} : Op α → Bool
  | .ins _ _ => true
  | .del _ => false

theorem run_good {α : Type} [Inhabited α] (ops : List (Op α)) :
    (∀ op ∈ ops, op.isIns = true) →
    (Trie.run ops).head.allGood ∧ (Trie.run ops).head.skip = [] := by
  suffices hgen : ∀ (t : Trie α), t.head.WF → t.head.skip = [] →
      t.head.allGood → (∀ op ∈ ops, op.isIns = true) →
      (ops.foldl Trie.applyOp t).head.allGood ∧
        (ops.foldl Trie.applyOp t).head.skip = [] by
    intro h
    refine hgen (Trie.init α) init_WF rfl ?_ h
    intro c hc m hm
    cases hc
  induction ops with
  | nil =>
      intro t hwf hsk hall _
      exact ⟨hall, hsk⟩
  | cons op ops ih =>
      intro t hwf hsk hall hins
      cases op with
      | ins k v =>
          have hstep := insertNode_good t.head k v hwf
          obtain ⟨hall', hsk'⟩ := hstep.2 hsk hall
          exact ih (t.insertOp k v).1 ((insertNode_spec t.head k v hwf).1)
            hsk' hall' (fun op hop => hins op (List.mem_cons_of_mem _ hop))
      | del k =>
          exfalso
          have := hins (.del k) (List.mem_cons_self _ _)
          simp [Op.isIns] at this

/-! ### clear() -/

theorem subVal_empty_node {α : Type} (d : α) (e : Fin 256) (ver : Nat)
    (k : List (Fin 256)) :
    subVal (.mk [] false d pop_tp.zero [] e ver) k = none := by
  rcases key_cases ([] : List (Fin 256)) k with h | h | ⟨c, r, h⟩
  · exact subVal_not_match _ _ _ _ _ _ _ h
  · subst h
    rw [subVal_self]
    simp
  · subst h
    exact subVal_cons_none _ _ _ _ _ _ _ c r
      (lookupChild_eq_none _ _ (pop_tp.has_zero c))

/-! ### The reference reading of `next(b)` -/

/-- What §4.1 specifies for `next(b)`: the byte of the lowest set bit
strictly greater than `b`, if any. -/
def specNext (p : pop_tp) (b : Fin 256) : Option Nat :=
  (p.bitsList.filter (fun x => b.val < x)).head?

theorem next_char_bit63_concrete : pop_tp.next_char ⟨2, 1, 0, 0⟩ 63 = 1 := by
  have hrem : pop_tp.word ⟨2, 1, 0, 0⟩ (((63 : Fin 256) : Nat) / 64) &&&
      ((2 ^ 64 - 1) ^^^ ((1 <<< ((((63 : Fin 256) : Nat) % 64 + 1) % 64)) - 1))
      = 2 := by decide
  rw [pop_tp.next_char]
  simp only [hrem]
  rw [if_pos (by decide)]
  rw [show (2 : Nat) = 2 ^ 1 from rfl, ctz_two_pow 1]
  decide

theorem specNext_bit63_concrete : specNext ⟨2, 1, 0, 0⟩ 63 = some 64 := by
  decide

/-- The state after inserting key `[97, 98]` into a fresh trie and then
erasing it again: the leaf child stays behind with its value flag cleared
(`try_remove` never compacts). -/
theorem run_ins_del_9798 :
    Trie.run [Op.ins ([97, 98] : List (Fin 256)) (1 : Nat), Op.del [97, 98]]
      = ⟨Node.mk [] false default (pop_tp.zero.set_bit 97).2
          [Node.mk [98] false default pop_tp.zero [] 97 1] 0 1, 0⟩ := by
  have hi : insertNode (Node.mk ([] : List (Fin 256)) false (default : Nat)
      pop_tp.zero [] 0 0) [97, 98] 1
      = (Node.mk [] false default (pop_tp.zero.set_bit 97).2
          [Node.mk [98] true 1 pop_tp.zero [] 97 0] 0 1, true) :=
    insertNode_empty_node false default 0 0 97 [98] 1
  have ht1 : Trie.applyOp (Trie.init Nat) (Op.ins [97, 98] 1)
      = ⟨Node.mk [] false default (pop_tp.zero.set_bit 97).2
          [Node.mk [98] true 1 pop_tp.zero [] 97 0] 0 1, 1⟩ := by
    show (Trie.insertOp (Trie.init Nat) [97, 98] 1).1 = _
    rw [insertOp_eq (Trie.init Nat) [97, 98] 1 _ _ hi]
    rfl
  have hdautoleaf : eraseNode (Node.mk ([98] : List (Fin 256)) true (1 : Nat)
      pop_tp.zero [] 97 0) [98]
      = some (Node.mk [98] false default pop_tp.zero [] 97 1) := by
    rw [eraseNode_self]
    rfl
  have he : eraseNode (Node.mk ([] : List (Fin 256)) false (default : Nat)
      (pop_tp.zero.set_bit 97).2
      [Node.mk [98] true 1 pop_tp.zero [] 97 0] 0 1) [97, 98]
      = some (Node.mk [] false default (pop_tp.zero.set_bit 97).2
          [Node.mk [98] false default pop_tp.zero [] 97 1] 0 1) :=
    eraseNode_single_child false default 0 1 97 [98] _ _ hdautoleaf
  show Trie.applyOp (Trie.applyOp (Trie.init Nat) (Op.ins [97, 98] 1))
      (Op.del [97, 98]) = _
  rw [ht1]
  show (Trie.eraseOp _ [97, 98]).1 = _
  rw [eraseOp_some he]
  rfl

/-! ### The claims -/

/-- C1: for every single-threaded sequence of inserts and erases and every
key, `find` returns exactly what the reference association list holds:
present iff the key itself was inserted and not subsequently erased, with
the value supplied by the insert that made it present (later inserts of a
present key are no-ops); keys that are only strict prefixes of stored keys
are absent, since they are absent in the reference map. -/
theorem C1_find_reflects_live_inserts {α : Type} [Inhabited α]
    (ops : List (Op α)) (k : List (Fin 256)) :
    (Trie.run ops).findVal k = specLookup (specRun ops) k :=
  (run_inv ops).2.1 k

/-- C2: on every reachable trie state, erasing a present key returns 1,
makes the key absent, decrements `size` by one and changes no other key;
erasing an absent key returns 0 and returns the state unchanged. -/
theorem C2_erase_present_and_absent {α : Type} [Inhabited α]
    (ops : List (Op α)) (k : List (Fin 256)) :
    (((Trie.run ops).findVal k).isSome →
      ((Trie.run ops).eraseOp k).2 = 1 ∧
      ((Trie.run ops).eraseOp k).1.findVal k = none ∧
      ((Trie.run ops).eraseOp k).1.size + 1 = (Trie.run ops).size ∧
      ∀ k', k' ≠ k →
        ((Trie.run ops).eraseOp k).1.findVal k' = (Trie.run ops).findVal k') ∧
    ((Trie.run ops).findVal k = none →
      (Trie.run ops).eraseOp k = ((Trie.run ops), 0)) := by
  obtain ⟨hwf, hval, hcnt, hnd⟩ := run_inv ops
  obtain ⟨hiff, hsome⟩ := eraseNode_spec (Trie.run ops).head k hwf
  constructor
  · intro hpres
    cases he : eraseNode (Trie.run ops).head k with
    | none =>
        exfalso
        have hnone : (Trie.run ops).findVal k = none := hiff.mp he
        rw [hnone] at hpres
        cases hpres
    | some n' =>
        obtain ⟨hWF', hpe', hnone', hother'⟩ := hsome n' he
        rw [eraseOp_some he]
        refine ⟨rfl, hnone', ?_, ?_⟩
        · show (Trie.run ops).elemCount - 1 + 1 = (Trie.run ops).elemCount
          have hks : (specLookup (specRun ops) k).isSome := by
            have hv : (Trie.run ops).findVal k
                = specLookup (specRun ops) k := hval k
            rw [← hv]
            exact hpres
          have hlen := filter_length_of_lookup_some (specRun ops) k hnd hks
          omega
        · intro k' hk'
          exact hother' k' hk'
  · intro habsent
    have he : eraseNode (Trie.run ops).head k = none := hiff.mpr habsent
    rw [eraseOp_none he]

/-- C3: on every reachable trie state, inserting a key that is already
present returns `inserted = false`, leaves `size` unchanged, and changes
the stored mapping of no key (in particular the present key keeps its old
value). -/
theorem C3_insert_idempotent_on_present {α : Type} [Inhabited α]
    (ops : List (Op α)) (k : List (Fin 256)) (w v' : α)
    (hpres : (Trie.run ops).findVal k = some w) :
    ((Trie.run ops).insertOp k v').2 = false ∧
    ((Trie.run ops).insertOp k v').1.size = (Trie.run ops).size ∧
    ∀ k', ((Trie.run ops).insertOp k v').1.findVal k'
      = (Trie.run ops).findVal k' := by
  have hwf := (run_inv ops).1
  obtain ⟨hWF', hpe', hins, hself, hother⟩ :=
    insertNode_spec (Trie.run ops).head k v' hwf
  have hsv : subVal (Trie.run ops).head k = some w := hpres
  have hr2 : (insertNode (Trie.run ops).head k v').2 = false := by
    cases hr : (insertNode (Trie.run ops).head k v').2 with
    | true =>
        rw [hins.mp hr] at hsv
        cases hsv
    | false => rfl
  refine ⟨hr2, ?_, ?_⟩
  · show (if (insertNode (Trie.run ops).head k v').2 = true
        then (Trie.run ops).elemCount + 1 else (Trie.run ops).elemCount)
      = (Trie.run ops).elemCount
    rw [hr2]
    simp
  · intro k'
    by_cases hkk : k' = k
    · subst hkk
      show subVal (insertNode (Trie.run ops).head k' v').1 k'
        = (Trie.run ops).findVal k'
      rw [hself, hsv, hpres]
      rfl
    · show subVal (insertNode (Trie.run ops).head k v').1 k'
        = (Trie.run ops).findVal k'
      rw [hother k' hkk]
      rfl

theorem C3_insert_idempotent_on_present_witness :
    (Trie.run [Op.ins ([] : List (Fin 256)) (0 : Nat)]).findVal [] = some 0 ∧
    ((Trie.run [Op.ins ([] : List (Fin 256)) (0 : Nat)]).insertOp [] 5).2
      = false ∧
    ((Trie.run [Op.ins ([] : List (Fin 256)) (0 : Nat)]).insertOp [] 5).1.size
      = (Trie.run [Op.ins ([] : List (Fin 256)) (0 : Nat)]).size ∧
    ∀ k', ((Trie.run [Op.ins ([] : List (Fin 256)) (0 : Nat)]).insertOp []
        5).1.findVal k'
      = (Trie.run [Op.ins ([] : List (Fin 256)) (0 : Nat)]).findVal k' := by
  have hpres : (Trie.run [Op.ins ([] : List (Fin 256)) (0 : Nat)]).findVal []
      = some 0 :=
    ((run_inv [Op.ins ([] : List (Fin 256)) (0 : Nat)]).2.1 []).trans (by decide)
  obtain ⟨h1, h2, h3⟩ :=
    C3_insert_idempotent_on_present [Op.ins [] 0] [] 0 5 hpres
  exact ⟨hpres, h1, h2, h3⟩

/-- C5: in every reachable state and at every node of the tree, the bitmap
population count equals the child-array length, and the `i`-th child is
the one `get_child` reaches through the byte of the `i`-th set bit of the
popmap, which is that child's `parent_edge`. -/
theorem C5_popmap_children_correspondence {α : Type} [Inhabited α]
    (ops : List (Op α)) :
    ∀ n : Node α, Reachable (Trie.run ops).head n →
      n.pop.count = n.children.length ∧
      ∀ i (hi : i < n.children.length),
        n.pop.bitsList[i]?
          = some (((n.children.get ⟨i, hi⟩).parentEdge : Nat)) ∧
        n.get_child (n.children.get ⟨i, hi⟩).parentEdge
          = some (n.children.get ⟨i, hi⟩) :=
  fun _ hr => WF_popmap_children (WF_of_reachable hr (run_inv ops).1)

theorem C5_popmap_children_correspondence_witness :
    (Trie.run ([] : List (Op Nat))).head.pop.count
      = (Trie.run ([] : List (Op Nat))).head.children.length ∧
    ∀ i (hi : i < (Trie.run ([] : List (Op Nat))).head.children.length),
      (Trie.run ([] : List (Op Nat))).head.pop.bitsList[i]?
        = some ((((Trie.run ([] : List (Op Nat))).head.children.get
            ⟨i, hi⟩).parentEdge : Nat)) ∧
      (Trie.run ([] : List (Op Nat))).head.get_child
          ((Trie.run ([] : List (Op Nat))).head.children.get ⟨i, hi⟩).parentEdge
        = some ((Trie.run ([] : List (Op Nat))).head.children.get ⟨i, hi⟩) :=
  C5_popmap_children_correspondence [] (Trie.run []).head
    (Reachable.refl (Trie.run []).head)

/-- C6 (amended): after a sequence consisting only of inserts, every
non-root node (each child of the root and everything below it) either has
`present = true` or has at least 2 children.  The original claim, over all
externally observable points, is false: `try_remove` clears `has_data`
without compacting, so after an erase a non-root node can survive with no
data and fewer than 2 children (see the counterexample). -/
theorem C6_nonroot_present_or_branching {α : Type} [Inhabited α]
    (ops : List (Op α)) (hins : ∀ op ∈ ops, op.isIns = true) :
    ∀ c ∈ (Trie.run ops).head.children, ∀ m, Reachable c m →
      m.hasData = true ∨ 2 ≤ m.children.length :=
  fun c hc m hm => (run_good ops hins).1 c hc m hm

theorem C6_nonroot_present_or_branching_witness :
    (∀ op ∈ [Op.ins ([97] : List (Fin 256)) (1 : Nat)], op.isIns = true) ∧
    ∀ c ∈ (Trie.run [Op.ins ([97] : List (Fin 256)) (1 : Nat)]).head.children,
      ∀ m, Reachable c m → m.hasData = true ∨ 2 ≤ m.children.length :=
  ⟨by decide, C6_nonroot_present_or_branching [Op.ins [97] 1] (by decide)⟩

theorem C6_erase_leaves_emptied_nonroot_node :
    ¬ (∀ c ∈ (Trie.run [Op.ins ([97, 98] : List (Fin 256)) (1 : Nat),
        Op.del [97, 98]]).head.children, ∀ m, Reachable c m →
        m.hasData = true ∨ 2 ≤ m.children.length) := by
  intro h
  have hmem : (Node.mk ([98] : List (Fin 256)) false (default : Nat)
      pop_tp.zero [] 97 1)
      ∈ (Trie.run [Op.ins ([97, 98] : List (Fin 256)) (1 : Nat),
          Op.del [97, 98]]).head.children := by
    rw [run_ins_del_9798]
    exact List.mem_singleton.mpr rfl
  have hbad := h _ hmem _ (Reachable.refl _)
  rcases hbad with h1 | h2
  · exact Bool.noConfusion h1
  · have h2' : (2 : Nat) ≤ 0 := h2
    exact absurd h2' (by decide)

/-- C7 (bug): the round-trip fails on keys containing byte 0.  With keys
`[97]` and `[97, 0]` stored (both visible to `find`), iterating from
`begin()` emits only `[97]`: the iterator tests `first_child_char() !=
'\0'`, so a child hanging off edge byte 0 is indistinguishable from "no
children" and its subtree is skipped. -/
theorem C7_iteration_loses_zero_byte_key :
    (Trie.run [Op.ins ([97] : List (Fin 256)) (1 : Nat),
      Op.ins [97, 0] 2]).findVal [97] = some 1 ∧
    (Trie.run [Op.ins ([97] : List (Fin 256)) (1 : Nat),
      Op.ins [97, 0] 2]).findVal [97, 0] = some 2 ∧
    trieKeys 5 5 (Trie.run [Op.ins ([97] : List (Fin 256)) (1 : Nat),
      Op.ins [97, 0] 2]) = [[97]] := by
  refine ⟨?_, ?_, iter_keys_97_970⟩
  · exact ((run_inv [Op.ins ([97] : List (Fin 256)) (1 : Nat),
      Op.ins [97, 0] 2]).2.1 [97]).trans (by decide)
  · exact ((run_inv [Op.ins ([97] : List (Fin 256)) (1 : Nat),
      Op.ins [97, 0] 2]).2.1 [97, 0]).trans (by decide)

/-- C8 (bug): for bytes whose bit position within a word is 63 the C++
computes `1ULL << 64`, which is undefined behaviour; with the mod-64 shift
of mainstream hardware the mask keeps the whole word, so on the popmap
`{0x01, 0x40}` the call `next(0x3F)` returns byte `0x01` — not strictly
greater than `0x3F` — instead of the specified lowest set bit above it,
`0x40`. -/
theorem C8_next_char_wraps_at_bit63 :
    pop_tp.next_char ⟨2, 1, 0, 0⟩ 63 = 1 ∧
    specNext ⟨2, 1, 0, 0⟩ 63 = some 64 ∧ (1 : Nat) ≤ 63 :=
  ⟨next_char_bit63_concrete, specNext_bit63_concrete, by decide⟩

/-- C9 (amended): `clear()` resets the root to the empty state — empty
skip, no value, no children, every key absent — and zeroes `size`, but it
bumps the root version instead of restoring the zero version of a freshly
constructed trie (see the counterexample). -/
theorem C9_clear_resets_except_version {α : Type} [Inhabited α]
    (t : Trie α) :
    (t.clearOp).head.skip = [] ∧
    (t.clearOp).head.hasData = false ∧
    (t.clearOp).head.children = [] ∧
    (t.clearOp).size = 0 ∧
    (∀ k, (t.clearOp).findVal k = none) ∧
    (t.clearOp).head.version = t.head.version + 1 := by
  refine ⟨rfl, rfl, rfl, rfl, ?_, rfl⟩
  intro k
  exact subVal_empty_node default _ _ k

theorem C9_clear_version_not_zero :
    (Trie.clearOp (Trie.init Nat)).head.version ≠ 0 := by
  decide

/-- C10: the empty byte string is an ordinary key stored at the root: when
it is absent, inserting it succeeds and increments `size`, `find` then
returns the inserted value, and erasing it returns 1 and makes it absent
again. -/
theorem C10_empty_key_roundtrip {α : Type} [Inhabited α]
    (ops : List (Op α)) (v : α)
    (habs : (Trie.run ops).findVal [] = none) :
    ((Trie.run ops).insertOp [] v).2 = true ∧
    ((Trie.run ops).insertOp [] v).1.size = (Trie.run ops).size + 1 ∧
    ((Trie.run ops).insertOp [] v).1.findVal [] = some v ∧
    (((Trie.run ops).insertOp [] v).1.eraseOp []).2 = 1 ∧
    (((Trie.run ops).insertOp [] v).1.eraseOp []).1.findVal [] = none := by
  have hwf := (run_inv ops).1
  obtain ⟨hWF', hpe', hins, hself, hother⟩ :=
    insertNode_spec (Trie.run ops).head [] v hwf
  have hsv : subVal (Trie.run ops).head [] = none := habs
  have hr2 : (insertNode (Trie.run ops).head [] v).2 = true := hins.mpr hsv
  have hfind : subVal (insertNode (Trie.run ops).head [] v).1 [] = some v := by
    rw [hself, hsv]
    rfl
  obtain ⟨hiff, hsome⟩ :=
    eraseNode_spec (insertNode (Trie.run ops).head [] v).1 [] hWF'
  cases he : eraseNode (insertNode (Trie.run ops).head [] v).1 [] with
  | none =>
      exfalso
      have hn := hiff.mp he
      rw [hn] at hfind
      cases hfind
  | some n' =>
      obtain ⟨hWF2, hpe2, hnone2, hother2⟩ := hsome n' he
      refine ⟨hr2, ?_, hfind, ?_, ?_⟩
      · show (if (insertNode (Trie.run ops).head [] v).2 = true
            then (Trie.run ops).elemCount + 1 else (Trie.run ops).elemCount)
          = (Trie.run ops).elemCount + 1
        rw [hr2, if_pos rfl]
      · rw [@eraseOp_some α _ (((Trie.run ops).insertOp [] v).1) [] n' he]
      · rw [@eraseOp_some α _ (((Trie.run ops).insertOp [] v).1) [] n' he]
        exact hnone2

theorem C10_empty_key_roundtrip_witness :
    (Trie.run ([] : List (Op Nat))).findVal [] = none ∧
    ((Trie.run ([] : List (Op Nat))).insertOp [] (7 : Nat)).2 = true ∧
    ((Trie.run ([] : List (Op Nat))).insertOp [] (7 : Nat)).1.size
      = (Trie.run ([] : List (Op Nat))).size + 1 ∧
    ((Trie.run ([] : List (Op Nat))).insertOp [] (7 : Nat)).1.findVal []
      = some 7 ∧
    (((Trie.run ([] : List (Op Nat))).insertOp [] (7 : Nat)).1.eraseOp []).2
      = 1 ∧
    (((Trie.run ([] : List (Op Nat))).insertOp [] (7 : Nat)).1.eraseOp
        []).1.findVal [] = none := by
  obtain ⟨h1, h2, h3, h4, h5⟩ :=
    C10_empty_key_roundtrip ([] : List (Op Nat)) 7 (subVal_init [])
  exact ⟨subVal_init [], h1, h2, h3, h4, h5⟩
